import Mathlib

/-!
# kvstore / etcdv3 adapter: embedding and verification

Shallow embedding of `store/etcdv3/etcd.go`.

* The canonical types of package `store` (`KVPair`, `WatchResponse`, the option
  structs and the error values) are declared as plain structures.
* `store.Normalize` is not among the embedded sources; every operation takes it as
  the parameter `Normalize : String → String`.
* `time.Duration.Seconds` goes through float64; `Duration.Seconds` reproduces its two
  binary64 roundings exactly, in integer arithmetic.
* The etcd v3 cluster behind `clientv3` is embedded as an explicit state (`Client`):
  the multi-version key space (keys with create/mod revision, version, lease), the
  store revision, the lease table, a schedule of transport outcomes (`faults`) and the
  trace of requests the client has sent (`log`).  A Go call `s.client.X(...)` becomes
  `Client.X`, returning the Go pair `(resp, err)` as an `Except` next to the new state.
* The `context.Context` arguments are dropped; a call that fails (cancelled context,
  network error, rejected request) is a round trip whose scheduled outcome is an error.
* Go pointers that may be nil are `Option`; a nil dereference is a `Panic`.
-/

namespace Etcdv3

/-! ## Machine integers -/

/-- Go conversion `int64(x)` of a `uint64` value. -/
def int64 (n : Nat) : Int :=
  if n % 2 ^ 64 < 2 ^ 63 then ((n % 2 ^ 64 : Nat) : Int) else ((n % 2 ^ 64 : Nat) : Int) - 2 ^ 64

/-- Go conversion `uint64(x)` of an `int64` value. -/
def uint64 (i : Int) : Nat :=
  (i % 2 ^ 64).toNat

/-- A `time.Duration`: a count of nanoseconds. -/
abbrev Duration := Int

/-- Position of the highest set bit of `n` (`0` for `n < 2`), with `fuel` halvings. -/
def log2Fuel : Nat → Nat → Nat
  | 0, _ => 0
  | fuel + 1, n => if n < 2 then 0 else log2Fuel fuel (n / 2) + 1

/-- The integer part of the binary logarithm of `n`, for `n ≥ 1`. -/
def ilog2 (n : Nat) : Nat :=
  log2Fuel n n

/-- IEEE 754 binary64 rounding (to nearest, ties to even) of the positive rational
`n / d`, in the normal range: the result `(m, e)` stands for `m * 2 ^ e` with
`2 ^ 52 ≤ m ≤ 2 ^ 53`; zero is `(0, 0)`. -/
def roundBinary64 (n d : Nat) : Nat × Int :=
  if n = 0 then (0, 0)
  else
    let e0 : Int := (ilog2 n : Int) - (ilog2 d : Int) - 52
    let scaled : Int → Nat × Nat := fun e =>
      if e ≤ 0 then (n * 2 ^ (-e).toNat, d) else (n, d * 2 ^ e.toNat)
    let e : Int := if (scaled e0).1 / (scaled e0).2 < 2 ^ 52 then e0 - 1 else e0
    let q := (scaled e).1 / (scaled e).2
    let r := (scaled e).1 % (scaled e).2
    let m := if 2 * r > (scaled e).2 then q + 1
             else if 2 * r = (scaled e).2 then q + q % 2 else q
    (m, e)

/-- The Go expression `int64(d.Seconds())`.  `time.Duration.Seconds` computes, in
float64, `float64(sec) + float64(nsec)/1e9` with `sec := d / Second` and
`nsec := d % Second` (both truncated toward zero, so of the sign of `d`); the two
conversions are exact, the division and the sum are each rounded to binary64, and the
conversion to `int64` truncates toward zero.  The computation is carried out on the
magnitude of `d`, rounding being symmetric in the sign. -/
def Duration.Seconds (d : Duration) : Int :=
  let a := d.natAbs
  let sec := a / 1000000000
  let nsec := a % 1000000000
  let q := roundBinary64 nsec 1000000000
  let k := (-q.2).toNat
  let s := roundBinary64 (sec * 2 ^ k + q.1) (2 ^ k)
  let t : Nat := if 0 ≤ s.2 then s.1 * 2 ^ s.2.toNat else s.1 / 2 ^ (-s.2).toNat
  if d < 0 then -(t : Int) else (t : Int)

/-! ## Package `store`: canonical types -/

/-- Error values of package `store`, plus opaque errors coming from the backend client. -/
inductive Error where
  | ErrKeyNotFound
  | ErrKeyExists
  | ErrKeyModified
  | ErrPreviousNotSpecified
  | ErrWatchFail
  | backend (msg : String)
  deriving DecidableEq, Repr

/-- A Go runtime panic. -/
inductive Panic where
  | nilDereference
  | indexOutOfRange
  deriving DecidableEq, Repr

/-- Result of a Go function returning `(value, error)` that may also panic. -/
inductive Outcome (α : Type) where
  | ok (a : α)
  | err (e : Error)
  | panic (p : Panic)
  deriving Repr

/-- The `store.KVPair` struct; `Index`, `Version` and `Lease` are `uint64`. -/
structure KVPair where
  Key : String
  Value : String
  Index : Nat
  Version : Nat
  Lease : Nat
  deriving DecidableEq, Repr

/-- The `store.WriteOptions` struct. -/
structure WriteOptions where
  TTL : Duration
  deriving DecidableEq, Repr

/-- The `store.WatchOptions` struct. -/
structure WatchOptions where
  Index : Nat
  deriving DecidableEq, Repr

/-- The `store.LockOptions` struct. -/
structure LockOptions where
  TTL : Duration
  Value : String
  deriving DecidableEq, Repr

/-- The action string of a watch response: the zero value `""`, `store.ActionPut` or
`store.ActionDelete`. -/
inductive Action where
  | unset
  | ActionPut
  | ActionDelete
  deriving DecidableEq, Repr

/-- The `store.WatchResponse` struct. -/
structure WatchResponse where
  Action : Action
  PreNode : Option KVPair
  Node : Option KVPair
  Error : Option Error
  deriving DecidableEq, Repr

/-! ## The etcd v3 backend -/

/-- The `mvccpb.KeyValue` message. -/
structure KeyValue where
  Key : String
  CreateRevision : Int
  ModRevision : Int
  Version : Int
  Value : String
  Lease : Int
  deriving DecidableEq, Repr

/-- The `mvccpb.Event_EventType` enum. -/
inductive EventType where
  | PUT
  | DELETE
  deriving DecidableEq, Repr

/-- The `clientv3.Event` message; `Kv` and `PrevKv` are pointers. -/
structure Event where
  Type_ : EventType
  Kv : Option KeyValue
  PrevKv : Option KeyValue
  deriving DecidableEq, Repr

/-- One `clientv3.WatchResponse` received from the watch channel. -/
structure WatchBatch where
  Events : List Event
  deriving DecidableEq, Repr

/-- Left-hand side of a comparison. -/
inductive CompareTarget where
  | CREATE
  | MOD
  | VALUE
  deriving DecidableEq, Repr

/-- Comparison operator: `"="` and `">"`. -/
inductive CompareResult where
  | EQUAL
  | GREATER
  deriving DecidableEq, Repr

/-- Right-hand side of a comparison: an `int64` or a byte string. -/
inductive CmpValue where
  | int (v : Int)
  | bytes (v : String)
  deriving DecidableEq, Repr

/-- The `clientv3.Cmp` guard of a transaction. -/
structure Cmp where
  Key : String
  Target : CompareTarget
  Result : CompareResult
  Value : CmpValue
  deriving DecidableEq, Repr

/-- Helper `clientv3.CreateRevision(key)`. -/
def CreateRevision (key : String) : String × CompareTarget := (key, .CREATE)

/-- Helper `clientv3.ModRevision(key)`. -/
def ModRevision (key : String) : String × CompareTarget := (key, .MOD)

/-- Helper `clientv3.Value(key)`. -/
def Value (key : String) : String × CompareTarget := (key, .VALUE)

/-- Helper `clientv3.Compare(cmp, result, v)`. -/
def Compare (lhs : String × CompareTarget) (result : CompareResult) (v : CmpValue) : Cmp :=
  { Key := lhs.1, Target := lhs.2, Result := result, Value := v }

/-- A write operation inside a transaction: `clientv3.OpPut` (lease `0` when no
`WithLease` option is given) and `clientv3.OpDelete` (with or without `WithPrefix`). -/
inductive Op where
  | Put (key val : String) (lease : Int)
  | Delete (key : String) (pfx : Bool)
  deriving DecidableEq, Repr

/-- Helper `clientv3.OpPut(key, val)` and `clientv3.OpPut(key, val, WithLease(id))`. -/
def OpPut (key val : String) (lease : Option Int) : Op :=
  .Put key val (lease.getD 0)

/-- Helper `clientv3.OpDelete(key)`. -/
def OpDelete (key : String) : Op :=
  .Delete key false

/-- A request as the backend receives it. -/
inductive Request where
  | Get (key : String) (pfx : Bool)
  | Put (key val : String) (lease : Int)
  | Delete (key : String) (pfx : Bool)
  | Grant (ttl : Int)
  | Txn (cmps : List Cmp) (thenOps : List Op)
  | Watch (key : String) (prevKV : Bool) (pfx : Bool) (rev : Option Int)
  deriving DecidableEq, Repr

/-- A lease of the backend lessor.  The TTL the server gives it (the requested one,
raised to the server's minimum) is not modelled; the request is in the log. -/
structure Lease where
  ID : Int
  deriving DecidableEq, Repr

/-- State reachable through a `clientv3.Client`: the key space of the cluster, its
revision, its leases, the outcomes scheduled for the coming round trips (`none`: the
request is served, `some e`: it fails with `e`; past the end every request is served)
and the requests sent so far. -/
structure Client where
  kvs : List KeyValue
  rev : Int
  leases : List Lease
  faults : List (Option Error)
  log : List Request
  deriving DecidableEq, Repr

/-- A fresh cluster: empty key space at revision 1. -/
def Client.empty : Client :=
  { kvs := [], rev := 1, leases := [], faults := [], log := [] }

/-- The current entry of a key. -/
def lookup (kvs : List KeyValue) (key : String) : Option KeyValue :=
  kvs.find? (fun kv => decide (kv.Key = key))

/-- Whether an entry is addressed by `key`, as a single key or as a key range. -/
def matchesKey (key : String) (pfx : Bool) (kv : KeyValue) : Bool :=
  if pfx then key.data.isPrefixOf kv.Key.data else decide (kv.Key = key)

/-- Integer comparison of a guard. -/
def compareInt (r : CompareResult) (a b : Int) : Bool :=
  match r with
  | .EQUAL => decide (a = b)
  | .GREATER => decide (a > b)

/-- Byte-string comparison of a guard. -/
def compareBytes (r : CompareResult) (a b : String) : Bool :=
  match r with
  | .EQUAL => decide (a = b)
  | .GREATER => decide (b < a)

/-- Server-side evaluation of one guard.  A key that does not exist compares as the
zero `KeyValue` for the revision targets and fails every value comparison. -/
def applyCompare (kvs : List KeyValue) (c : Cmp) : Bool :=
  match lookup kvs c.Key with
  | none =>
    match c.Target, c.Value with
    | .CREATE, .int v => compareInt c.Result 0 v
    | .MOD, .int v => compareInt c.Result 0 v
    | _, _ => false
  | some kv =>
    match c.Target, c.Value with
    | .CREATE, .int v => compareInt c.Result kv.CreateRevision v
    | .MOD, .int v => compareInt c.Result kv.ModRevision v
    | .VALUE, .bytes v => compareBytes c.Result kv.Value v
    | _, _ => false

/-- Write `val` under `key` at revision `r`: an existing entry keeps its create
revision and has its version incremented, a new entry starts at version 1. -/
def putKV (r : Int) (key val : String) (lease : Int) : List KeyValue → List KeyValue
  | [] => [{ Key := key, CreateRevision := r, ModRevision := r, Version := 1,
             Value := val, Lease := lease }]
  | kv :: rest =>
    if kv.Key = key then
      { kv with ModRevision := r, Version := kv.Version + 1, Value := val, Lease := lease } :: rest
    else kv :: putKV r key val lease rest

/-- Remove the entries addressed by `key`. -/
def deleteRange (key : String) (pfx : Bool) (kvs : List KeyValue) : List KeyValue :=
  kvs.filter (fun kv => !matchesKey key pfx kv)

/-- Apply one write at revision `r`; the flag records whether the key space changed. -/
def applyOp (r : Int) (st : List KeyValue × Bool) (op : Op) : List KeyValue × Bool :=
  match op with
  | .Put key val lease => (putKV r key val lease st.1, true)
  | .Delete key pfx => (deleteRange key pfx st.1, st.2 || st.1.any (matchesKey key pfx))

/-- Apply a list of writes as one revision; the store revision advances only when
something was written or deleted. -/
def Client.applyOps (c : Client) (ops : List Op) : Client :=
  let st := ops.foldl (applyOp (c.rev + 1)) (c.kvs, false)
  { c with kvs := st.1, rev := if st.2 then c.rev + 1 else c.rev }

/-- Send one request: it is recorded, and the next scheduled outcome is consumed. -/
def Client.roundTrip (c : Client) (r : Request) : Option Error × Client :=
  match c.faults with
  | [] => (none, { c with log := c.log ++ [r] })
  | f :: fs => (f, { c with faults := fs, log := c.log ++ [r] })

/-- The `clientv3.GetResponse` message. -/
structure GetResponse where
  Kvs : List KeyValue
  Count : Int
  deriving DecidableEq, Repr

/-- The `clientv3.LeaseGrantResponse` message, reduced to the field the adapter reads. -/
structure LeaseGrantResponse where
  ID : Int
  deriving DecidableEq, Repr

/-- The `clientv3.TxnResponse` message. -/
structure TxnResponse where
  Succeeded : Bool
  deriving DecidableEq, Repr

/-- Range read `client.Get(ctx, key, opts...)`: the entries addressed, in key order. -/
def Client.Get (c : Client) (key : String) (pfx : Bool) : Except Error GetResponse × Client :=
  match c.roundTrip (.Get key pfx) with
  | (some e, c1) => (.error e, c1)
  | (none, c1) =>
    let found := (c1.kvs.filter (matchesKey key pfx)).insertionSort (fun a b => a.Key ≤ b.Key)
    (.ok { Kvs := found, Count := found.length }, c1)

/-- Lease grant `client.Grant(ctx, ttl)`: a lease with a fresh non-zero ID. -/
def Client.Grant (c : Client) (ttl : Int) : Except Error LeaseGrantResponse × Client :=
  match c.roundTrip (.Grant ttl) with
  | (some e, c1) => (.error e, c1)
  | (none, c1) =>
    let id : Int := c1.leases.length + 1
    (.ok { ID := id }, { c1 with leases := c1.leases ++ [{ ID := id }] })

/-- Unconditional write `client.Put(ctx, key, val, opts...)`. -/
def Client.Put (c : Client) (key val : String) (lease : Option Int) : Except Error Unit × Client :=
  match c.roundTrip (.Put key val (lease.getD 0)) with
  | (some e, c1) => (.error e, c1)
  | (none, c1) => (.ok (), c1.applyOps [OpPut key val lease])

/-- Unconditional delete `client.Delete(ctx, key, opts...)`. -/
def Client.Delete (c : Client) (key : String) (pfx : Bool) : Except Error Unit × Client :=
  match c.roundTrip (.Delete key pfx) with
  | (some e, c1) => (.error e, c1)
  | (none, c1) => (.ok (), c1.applyOps [.Delete key pfx])

/-- Transaction `client.Txn(ctx).If(cmps...).Then(ops...).Commit()`: the guards are all
evaluated on the current key space and, when they all hold, the writes are applied as
one revision; the transactions of this adapter have no `Else` branch. -/
def Client.Txn (c : Client) (cmps : List Cmp) (thenOps : List Op) :
    Except Error TxnResponse × Client :=
  match c.roundTrip (.Txn cmps thenOps) with
  | (some e, c1) => (.error e, c1)
  | (none, c1) =>
    if cmps.all (applyCompare c1.kvs) then (.ok { Succeeded := true }, c1.applyOps thenOps)
    else (.ok { Succeeded := false }, c1)

/-- Watch registration `watcher.Watch(ctx, key, opts...)`. -/
def Client.Watch (c : Client) (key : String) (prevKV pfx : Bool) (rev : Option Int) : Client :=
  (c.roundTrip (.Watch key prevKV pfx rev)).2

/-- A `concurrency.Session`: the lease that keeps it alive. -/
structure Session where
  lease : Int
  deriving DecidableEq, Repr

/-- A `concurrency.Mutex`. -/
structure Mutex where
  s : Option Session
  pfx : String
  myKey : String
  myRev : Int
  deriving DecidableEq, Repr

/-- Constructor `concurrency.NewSession(client, opts...)`: the session TTL is 60 seconds
unless `WithTTL` carries a positive value; a lease of that TTL is granted. -/
def NewSession (c : Client) (withTTL : Option Int) : Except Error Session × Client :=
  let ttl : Int :=
    match withTTL with
    | some t => if t > 0 then t else 60
    | none => 60
  match c.Grant ttl with
  | (.error e, c1) => (.error e, c1)
  | (.ok resp, c1) => (.ok { lease := resp.ID }, c1)

/-- Constructor `concurrency.NewMutex(s, pfx)`. -/
def NewMutex (s : Option Session) (pfx : String) : Mutex :=
  { s := s, pfx := pfx ++ "/", myKey := "", myRev := -1 }

/-! ## The adapter `Etcd` -/

/-- The receiver type of the Store interface. -/
structure Etcd where
  client : Client
  deriving DecidableEq, Repr

/-- The canonical pair of a backend entry, as built in `get` and for `PreNode`. -/
def toKVPair (kv : KeyValue) : KVPair :=
  { Key := kv.Key, Value := kv.Value, Index := uint64 kv.ModRevision,
    Version := uint64 kv.Version, Lease := uint64 kv.Lease }

section Adapter

variable (Normalize : String → String)

/-- Method `get`: range read of the normalized key. -/
def Etcd.get (s : Etcd) (key : String) (pfx : Bool) : Except Error (List KVPair) × Etcd :=
  match s.client.Get (Normalize key) pfx with
  | (.error err, c) => (.error err, ⟨c⟩)
  | (.ok resp, c) =>
    if resp.Count = 0 then (.error .ErrKeyNotFound, ⟨c⟩)
    else (.ok (resp.Kvs.map toKVPair), ⟨c⟩)

/-- Method `Get`: the value at `key`. -/
def Etcd.Get (s : Etcd) (key : String) : Outcome KVPair × Etcd :=
  match Etcd.get Normalize s key false with
  | (.error err, s1) => (.err err, s1)
  | (.ok pairs, s1) =>
    match pairs with
    | [] => (.panic .indexOutOfRange, s1)
    | p :: _ => (.ok p, s1)

/-- Method `Put`: put a value at `key`. -/
def Etcd.Put (s : Etcd) (key value : String) (opts : Option WriteOptions) : Option Error × Etcd :=
  let key := Normalize key
  match opts with
  | some o =>
    match s.client.Grant o.TTL.Seconds with
    | (.error err, c) => (some err, ⟨c⟩)
    | (.ok resp, c) =>
      match c.Put key value (some resp.ID) with
      | (.error err, c1) => (some err, ⟨c1⟩)
      | (.ok _, c1) => (none, ⟨c1⟩)
  | none =>
    match s.client.Put key value none with
    | (.error err, c1) => (some err, ⟨c1⟩)
    | (.ok _, c1) => (none, ⟨c1⟩)

/-- The shared prologue of `Update`, `Create` and `AtomicPut`: the put request, with a
freshly granted lease when options are given. -/
def Etcd.putRequest (s : Etcd) (key value : String) (opts : Option WriteOptions) :
    Except Error Op × Etcd :=
  match opts with
  | some o =>
    match s.client.Grant o.TTL.Seconds with
    | (.error err, c) => (.error err, ⟨c⟩)
    | (.ok leaseResp, c) => (.ok (OpPut key value (some leaseResp.ID)), ⟨c⟩)
  | none => (.ok (OpPut key value none), s)

/-- Method `Update`: put with key exist. -/
def Etcd.Update (s : Etcd) (key value : String) (opts : Option WriteOptions) :
    Option Error × Etcd :=
  let key := Normalize key
  match Etcd.putRequest s key value opts with
  | (.error err, s1) => (some err, s1)
  | (.ok req, s1) =>
    match s1.client.Txn [Compare (CreateRevision key) .GREATER (.int 0)] [req] with
    | (.error err, c) => (some err, ⟨c⟩)
    | (.ok resp, c) =>
      if !resp.Succeeded then (some .ErrKeyNotFound, ⟨c⟩)
      else (none, ⟨c⟩)

/-- Method `Create`: put with key not exist. -/
def Etcd.Create (s : Etcd) (key value : String) (opts : Option WriteOptions) :
    Option Error × Etcd :=
  let key := Normalize key
  match Etcd.putRequest s key value opts with
  | (.error err, s1) => (some err, s1)
  | (.ok req, s1) =>
    match s1.client.Txn [Compare (CreateRevision key) .EQUAL (.int 0)] [req] with
    | (.error err, c) => (some err, ⟨c⟩)
    | (.ok resp, c) =>
      if !resp.Succeeded then (some .ErrKeyExists, ⟨c⟩)
      else (none, ⟨c⟩)

/-- Method `Delete`: delete the value at `key`. -/
def Etcd.Delete (s : Etcd) (key : String) : Option Error × Etcd :=
  match s.client.Delete (Normalize key) false with
  | (.error err, c) => (some err, ⟨c⟩)
  | (.ok _, c) => (none, ⟨c⟩)

/-- Method `Exists`: whether the key exists inside the store. -/
def Etcd.Exists (s : Etcd) (key : String) : Outcome Bool × Etcd :=
  match Etcd.Get Normalize s key with
  | (.panic p, s1) => (.panic p, s1)
  | (.err err, s1) =>
    if err = .ErrKeyNotFound then (.ok false, s1)
    else (.err err, s1)
  | (.ok _, s1) => (.ok true, s1)

/-- The guards built by `AtomicPut`. -/
def atomicPutCmps (key : String) (previous : Option KVPair) : List Cmp :=
  match previous with
  | none => [Compare (CreateRevision key) .EQUAL (.int 0)]
  | some p =>
    [Compare (Value key) .EQUAL (.bytes p.Value)] ++
      (if p.Index ≠ 0 then [Compare (ModRevision key) .EQUAL (.int (int64 p.Index))] else [])

/-- Method `AtomicPut`: put a value at `key` if the key has not been modified in the
meantime. -/
def Etcd.AtomicPut (s : Etcd) (key value : String) (previous : Option KVPair)
    (opts : Option WriteOptions) : Option Error × Etcd :=
  let key := Normalize key
  match Etcd.putRequest s key value opts with
  | (.error err, s1) => (some err, s1)
  | (.ok req, s1) =>
    let cmp := atomicPutCmps key previous
    match s1.client.Txn cmp [req] with
    | (.error err, c) => (some err, ⟨c⟩)
    | (.ok resp, c) =>
      if resp.Succeeded then (none, ⟨c⟩)
      else if previous = none then (some .ErrKeyExists, ⟨c⟩)
      else (some .ErrKeyModified, ⟨c⟩)

/-- Method `AtomicDelete`: delete the value at `key` if the key has not been modified
in the meantime. -/
def Etcd.AtomicDelete (s : Etcd) (key : String) (previous : Option KVPair) :
    Option Error × Etcd :=
  let key := Normalize key
  match previous with
  | none => (some .ErrPreviousNotSpecified, s)
  | some p =>
    let cmp := [Compare (Value key) .EQUAL (.bytes p.Value)] ++
      (if p.Index ≠ 0 then [Compare (ModRevision key) .EQUAL (.int (int64 p.Index))] else [])
    match s.client.Txn cmp [OpDelete key] with
    | (.error err, c) => (some err, ⟨c⟩)
    | (.ok resp, c) =>
      if !resp.Succeeded then (some .ErrKeyModified, ⟨c⟩)
      else (none, ⟨c⟩)

/-- Method `List`: the child nodes of a directory. -/
def Etcd.List (s : Etcd) (directory : String) : Except Error (List KVPair) × Etcd :=
  match Etcd.get Normalize s (Normalize directory) true with
  | (.error err, s1) => (.error err, s1)
  | (.ok pairs, s1) => (.ok pairs, s1)

/-- Method `DeleteTree`: delete the range of keys under a directory. -/
def Etcd.DeleteTree (s : Etcd) (directory : String) : Option Error × Etcd :=
  match s.client.Delete (Normalize directory) true with
  | (.error err, c) => (some err, ⟨c⟩)
  | (.ok _, c) => (none, ⟨c⟩)

/-- Method `watch`, up to the start of the delivery goroutine: the watch is registered
on the normalized key with `WithPrevKV`, `WithPrefix` in tree mode and `WithRev` when
options are given. -/
def Etcd.watch (s : Etcd) (key : String) (pfx : Bool) (opt : Option WatchOptions) : Etcd :=
  ⟨s.client.Watch (Normalize key) true pfx (opt.map (fun o => int64 o.Index))⟩

/-- Method `Watch`: watch for changes on a key. -/
def Etcd.Watch (s : Etcd) (key : String) (opt : Option WatchOptions) : Etcd :=
  Etcd.watch Normalize s key false opt

/-- Method `WatchTree`: watch for changes on a directory. -/
def Etcd.WatchTree (s : Etcd) (directory : String) (opt : Option WatchOptions) : Etcd :=
  Etcd.watch Normalize s directory true opt

end Adapter

/-- Method `NewLock`: a lock for a given key; the session error is discarded. -/
def Etcd.NewLock (s : Etcd) (key : String) (opt : Option LockOptions) : Mutex × Etcd :=
  match opt with
  | some o =>
    match NewSession s.client (some o.TTL.Seconds) with
    | (.error _, c) => (NewMutex none key, ⟨c⟩)
    | (.ok session, c) => (NewMutex (some session) key, ⟨c⟩)
  | none =>
    match NewSession s.client none with
    | (.error _, c) => (NewMutex none key, ⟨c⟩)
    | (.ok session, c) => (NewMutex (some session) key, ⟨c⟩)

/-! ## Watch translation and delivery -/

/-- Method `makeWatchResponse`: the translation of one backend event, or the error
item.  Dereferencing a nil `event`, `event.Kv` or `event.PrevKv` panics. -/
def makeWatchResponse (event : Option Event) (err : Option Error) : Except Panic WatchResponse :=
  match err with
  | some e => .ok { Action := .unset, PreNode := none, Node := none, Error := some e }
  | none =>
    match event with
    | none => .error .nilDereference
    | some event =>
      let action : Action :=
        match event.Type_ with
        | .PUT => .ActionPut
        | .DELETE => .ActionDelete
      let preNode : Option KVPair :=
        match event.PrevKv with
        | some prev => some { Key := prev.Key, Value := prev.Value,
                              Index := uint64 prev.ModRevision,
                              Version := uint64 prev.Version, Lease := uint64 prev.Lease }
        | none => none
      match event.Kv, event.PrevKv with
      | some kv, some prev =>
        .ok { Action := action, PreNode := preNode,
              Node := some { Key := kv.Key, Value := kv.Value, Index := uint64 kv.ModRevision,
                             Version := uint64 prev.Version, Lease := uint64 prev.Lease },
              Error := none }
      | _, _ => .error .nilDereference

/-- What the delivery goroutine has done when it stops: the items sent on the response
channel in order, whether the channel and the watcher were closed, and the panic that
ended the goroutine, if any. -/
structure Delivery where
  sent : List WatchResponse
  closed : Bool
  watcherClosed : Bool
  panicked : Option Panic
  deriving DecidableEq, Repr

/-- The inner loop of the goroutine: send the translation of each event of a batch. -/
def forwardEvents : List Event → List WatchResponse → List WatchResponse × Option Panic
  | [], out => (out, none)
  | e :: es, out =>
    match makeWatchResponse (some e) none with
    | .error p => (out, some p)
    | .ok r => forwardEvents es (out ++ [r])

/-- The delivery goroutine of `watch` run on the batches the backend channel yields
before it is closed.  A receive on the closed channel yields the zero batch with
`ok = false`; the deferred calls close the watcher and the response channel on every
exit, a panic included. -/
def watchLoop : List WatchBatch → List WatchResponse → Delivery
  | [], out =>
    match forwardEvents [] out with
    | (out1, some p) => { sent := out1, closed := true, watcherClosed := true, panicked := some p }
    | (out1, none) =>
      match makeWatchResponse none (some .ErrWatchFail) with
      | .error p => { sent := out1, closed := true, watcherClosed := true, panicked := some p }
      | .ok r => { sent := out1 ++ [r], closed := true, watcherClosed := true, panicked := none }
  | ch :: rest, out =>
    match forwardEvents ch.Events out with
    | (out1, some p) => { sent := out1, closed := true, watcherClosed := true, panicked := some p }
    | (out1, none) => watchLoop rest out1

/-! ## Well-formed backend states -/

/-- Revisions of a reachable cluster state: the store revision is positive and every
stored key was created at a positive revision, not after its last modification, which
is not after the store revision. -/
def Client.Wf (c : Client) : Prop :=
  0 < c.rev ∧ ∀ kv ∈ c.kvs, 0 < kv.CreateRevision ∧ kv.CreateRevision ≤ kv.ModRevision ∧
    kv.ModRevision ≤ c.rev

/-- The condition of a compare-and-swap against `previous`, in the words of the
contract: the key holds `previous.Value` and, when `previous.Index` is not zero, was
last modified at revision `previous.Index`. -/
def casCondition (c : Client) (key : String) (previous : KVPair) : Prop :=
  ∃ kv, lookup c.kvs key = some kv ∧ kv.Value = previous.Value ∧
    (previous.Index ≠ 0 → kv.ModRevision = (previous.Index : Int))

/-- The keys a request addresses. -/
def Request.keys : Request → List String
  | .Get key _ => [key]
  | .Put key _ _ => [key]
  | .Delete key _ => [key]
  | .Grant _ => []
  | .Txn cmps thenOps =>
    cmps.map (fun c => c.Key) ++ thenOps.map (fun op =>
      match op with
      | .Put key _ _ => key
      | .Delete key _ => key)
  | .Watch key _ _ _ => [key]

/-- Modelled from the spec: `store.Normalize` is not among the sources.  The spec
describes it as a pure, total, idempotent canonicalisation of the slashes and of the
leading and trailing separators of a path, under which a path written with or without
a leading separator is the same key.  The model splits the path at `/`, drops the empty
components and joins the rest behind one leading `/`.  It only instantiates the
parameter `Normalize` at concrete inputs. -/
def normalizeModel (key : String) : String :=
  String.mk ('/' :: List.intercalate ['/']
    ((key.data.splitOn '/').filter (fun part => !part.isEmpty)))

/-- The requests sent between two states of the client all satisfy `P`. -/
def sentOnly (P : Request → Prop) (c c1 : Client) : Prop :=
  ∃ added, c1.log = c.log ++ added ∧ ∀ r ∈ added, P r

/-- A state holding key `/a` with value `x`, written once at revision 2. -/
def oneKey : Etcd :=
  ⟨{ kvs := [{ Key := "/a", CreateRevision := 2, ModRevision := 2, Version := 1,
               Value := "x", Lease := 0 }],
     rev := 2, leases := [], faults := [], log := [] }⟩

/-- Every key a request addresses is `K`. -/
def addresses (K : String) (r : Request) : Prop :=
  ∀ x ∈ r.keys, x = K

/-- The watch event of the put that creates `/a`: there is no previous state. -/
def creatingPut : Event :=
  { Type_ := .PUT,
    Kv := some { Key := "/a", CreateRevision := 2, ModRevision := 2, Version := 1,
                 Value := "x", Lease := 0 },
    PrevKv := none }

/-- The watch event of a second put of `/a`, under lease 7. -/
def secondPut : Event :=
  { Type_ := .PUT,
    Kv := some { Key := "/a", CreateRevision := 2, ModRevision := 3, Version := 2,
                 Value := "y", Lease := 7 },
    PrevKv := some { Key := "/a", CreateRevision := 2, ModRevision := 2, Version := 1,
                     Value := "x", Lease := 0 } }

/-- The pair a `Get` of `/a` returns in `oneKey`. -/
def previousRead : KVPair :=
  { Key := "/a", Value := "x", Index := 2, Version := 1, Lease := 0 }

/-- A hand-built `previous` for `/a` in `oneKey` that names the value but no index. -/
def previousNoIndex : KVPair :=
  { Key := "/a", Value := "x", Index := 0, Version := 0, Lease := 0 }

/-! # Theorems -/

/-! ## Key-space lemmas -/

theorem lookup_some_key {kvs : List KeyValue} {key : String} {kv : KeyValue}
    (h : lookup kvs key = some kv) : kv.Key = key := by
  have := List.find?_some h
  simpa using this

theorem lookup_some_mem {kvs : List KeyValue} {key : String} {kv : KeyValue}
    (h : lookup kvs key = some kv) : kv ∈ kvs :=
  List.mem_of_find?_eq_some h

theorem lookup_putKV_same (r : Int) (key val : String) (lease : Int) (kvs : List KeyValue) :
    lookup (putKV r key val lease kvs) key =
      some (match lookup kvs key with
        | some kv => { kv with ModRevision := r, Version := kv.Version + 1, Value := val,
                               Lease := lease }
        | none => { Key := key, CreateRevision := r, ModRevision := r, Version := 1,
                    Value := val, Lease := lease }) := by
  induction kvs with
  | nil => simp [putKV, lookup]
  | cons kv rest ih =>
    by_cases h : kv.Key = key
    · simp [putKV, lookup, h]
    · simp only [lookup] at ih
      simp [putKV, lookup, h, ih]

theorem lookup_putKV_other (r : Int) (key val : String) (lease : Int) (kvs : List KeyValue)
    (k : String) (hk : k ≠ key) :
    lookup (putKV r key val lease kvs) k = lookup kvs k := by
  induction kvs with
  | nil =>
    have : ¬ key = k := fun h => hk h.symm
    simp [putKV, lookup, this]
  | cons kv rest ih =>
    simp only [lookup] at ih
    by_cases h : kv.Key = key
    · subst h
      have h2 : ¬ kv.Key = k := fun e => hk e.symm
      simp [putKV, lookup, h2]
    · by_cases h3 : kv.Key = k
      · subst h3
        simp [putKV, lookup, h]
      · simp [putKV, lookup, h, h3, ih]

theorem lookup_deleteRange_same (key : String) (kvs : List KeyValue) :
    lookup (deleteRange key false kvs) key = none := by
  simp [lookup, deleteRange, matchesKey, List.find?_eq_none]

theorem lookup_deleteRange_other (key : String) (kvs : List KeyValue) (k : String)
    (hk : k ≠ key) : lookup (deleteRange key false kvs) k = lookup kvs k := by
  induction kvs with
  | nil => simp [lookup, deleteRange]
  | cons kv rest ih =>
    simp only [lookup, deleteRange, matchesKey] at ih
    by_cases h : kv.Key = key
    · subst h
      have h2 : ¬ kv.Key = k := fun e => hk e.symm
      simp only [lookup, deleteRange, matchesKey]
      simp [List.filter_cons, h2]
      simpa using ih
    · by_cases h3 : kv.Key = k
      · subst h3
        simp [lookup, deleteRange, matchesKey, h, List.filter_cons]
      · simp only [lookup, deleteRange, matchesKey]
        simp [h, h3, List.filter_cons]
        simpa using ih

/-! ## Served round trips -/

theorem roundTrip_served (c : Client) (r : Request) (h : c.faults = []) :
    c.roundTrip r = (none, { c with log := c.log ++ [r] }) := by
  simp [Client.roundTrip, h]

theorem Txn_served (c : Client) (cmps : List Cmp) (ops : List Op) (h : c.faults = []) :
    c.Txn cmps ops =
      if cmps.all (applyCompare c.kvs) then
        (.ok { Succeeded := true },
          ({ c with log := c.log ++ [.Txn cmps ops] } : Client).applyOps ops)
      else (.ok { Succeeded := false }, { c with log := c.log ++ [.Txn cmps ops] }) := by
  simp [Client.Txn, roundTrip_served c _ h]

theorem Grant_served (c : Client) (ttl : Int) (h : c.faults = []) :
    c.Grant ttl =
      (.ok { ID := c.leases.length + 1 },
        { c with log := c.log ++ [.Grant ttl],
                 leases := c.leases ++ [{ ID := c.leases.length + 1 }] }) := by
  simp [Client.Grant, roundTrip_served c _ h]

theorem Put_served (c : Client) (key val : String) (lease : Option Int) (h : c.faults = []) :
    c.Put key val lease =
      (.ok (), ({ c with log := c.log ++ [.Put key val (lease.getD 0)] } : Client).applyOps
        [.Put key val (lease.getD 0)]) := by
  simp [Client.Put, roundTrip_served c _ h, OpPut]

theorem applyOps_put (c : Client) (key val : String) (lease : Int) :
    c.applyOps [.Put key val lease] =
      { c with kvs := putKV (c.rev + 1) key val lease c.kvs, rev := c.rev + 1 } := by
  simp [Client.applyOps, applyOp]

theorem applyOps_delete (c : Client) (key : String) :
    c.applyOps [.Delete key false] =
      { c with kvs := deleteRange key false c.kvs,
               rev := if c.kvs.any (matchesKey key false) then c.rev + 1 else c.rev } := by
  simp [Client.applyOps, applyOp]

/-- The put request of `Update`, `Create` and `AtomicPut` when the backend serves the
grant: without options the state is untouched and the write carries lease 0; with
options one `Grant` of `int64(opts.TTL.Seconds())` is sent and the write carries the ID
of the lease just granted. -/
theorem putRequest_served (s : Etcd) (key value : String) (opts : Option WriteOptions)
    (h : s.client.faults = []) :
    Etcd.putRequest s key value opts =
      match opts with
      | none => (.ok (.Put key value 0), s)
      | some o =>
        (.ok (.Put key value (s.client.leases.length + 1)),
          ⟨{ s.client with
              log := s.client.log ++ [.Grant o.TTL.Seconds],
              leases := s.client.leases ++ [{ ID := s.client.leases.length + 1 }] }⟩) := by
  cases opts with
  | none => simp [Etcd.putRequest, OpPut]
  | some o => simp [Etcd.putRequest, Grant_served _ _ h, OpPut]

/-- Facts about the state in which the transaction of a conditional write runs. -/
theorem putRequest_spec (s : Etcd) (key value : String) (opts : Option WriteOptions)
    (h : s.client.faults = []) :
    ∃ lease s1, Etcd.putRequest s key value opts = (.ok (.Put key value lease), s1) ∧
      s1.client.kvs = s.client.kvs ∧ s1.client.rev = s.client.rev ∧
      s1.client.faults = [] ∧ (opts = none → s1 = s ∧ lease = 0) := by
  rw [putRequest_served s key value opts h]
  cases opts with
  | none => exact ⟨0, s, rfl, rfl, rfl, h, fun _ => ⟨rfl, rfl⟩⟩
  | some o => exact ⟨_, _, rfl, rfl, rfl, h, fun e => by cases e⟩

/-! ## Machine-integer lemmas -/

theorem int64_eq_iff (n : Nat) (m : Int) (hn : n < 2 ^ 64) (hm0 : 0 ≤ m) (hm : m < 2 ^ 63) :
    int64 n = m ↔ (n : Int) = m := by
  unfold int64
  rw [Nat.mod_eq_of_lt hn]
  split
  · rfl
  · rename_i h
    constructor
    · intro e; omega
    · intro e; omega


set_option maxRecDepth 4000 in
/-- Values of `int64(d.Seconds())`: whole and fractional durations are truncated toward
zero, for either sign; from 2 ^ 24 seconds on, a fraction close enough to a full second
is rounded up by the float64 sum before the truncation. -/
theorem Duration_Seconds_values :
    Duration.Seconds 0 = 0 ∧ Duration.Seconds 999999999 = 0 ∧
    Duration.Seconds 1000000000 = 1 ∧ Duration.Seconds 1500000000 = 1 ∧
    Duration.Seconds (-1500000000) = -1 ∧ Duration.Seconds 5000000000 = 5 ∧
    Duration.Seconds 16777215999999999 = 16777215 ∧
    Duration.Seconds 16777216999999999 = 16777217 ∧
    Duration.Seconds (-16777216999999999) = -16777217 ∧
    Duration.Seconds 9223372036854775807 = 9223372036 :=
  ⟨by decide, by decide, by decide, by decide, by decide, by decide, by decide, by decide,
    by decide, by decide⟩

/-! ## Well-formedness is an invariant -/

theorem Wf_empty : Client.empty.Wf := by
  simp [Client.Wf, Client.empty]

theorem mem_putKV {r : Int} {key val : String} {lease : Int} {kvs : List KeyValue}
    {x : KeyValue} (hx : x ∈ putKV r key val lease kvs) :
    x ∈ kvs ∨ x.ModRevision = r ∧
      (x.CreateRevision = r ∨ ∃ kv ∈ kvs, x.CreateRevision = kv.CreateRevision) := by
  induction kvs with
  | nil =>
    simp [putKV] at hx
    subst hx
    exact Or.inr ⟨rfl, Or.inl rfl⟩
  | cons kv rest ih =>
    by_cases h : kv.Key = key
    · simp [putKV, h] at hx
      rcases hx with hx | hx
      · subst hx
        exact Or.inr ⟨rfl, Or.inr ⟨kv, by simp, rfl⟩⟩
      · exact Or.inl (by simp [hx])
    · simp [putKV, h] at hx
      rcases hx with hx | hx
      · exact Or.inl (by simp [hx])
      · rcases ih hx with h1 | ⟨h1, h2⟩
        · exact Or.inl (by simp [h1])
        · refine Or.inr ⟨h1, ?_⟩
          rcases h2 with h2 | ⟨kv2, hm, h2⟩
          · exact Or.inl h2
          · exact Or.inr ⟨kv2, by simp [hm], h2⟩

theorem Wf_put (c : Client) (hwf : c.Wf) (key val : String) (lease : Int)
    (leases : List Lease) (faults : List (Option Error)) (log : List Request) :
    Client.Wf { kvs := putKV (c.rev + 1) key val lease c.kvs, rev := c.rev + 1,
                leases := leases, faults := faults, log := log } := by
  obtain ⟨h0, hall⟩ := hwf
  refine ⟨by show 0 < c.rev + 1; omega, ?_⟩
  intro x hx
  show 0 < x.CreateRevision ∧ x.CreateRevision ≤ x.ModRevision ∧ x.ModRevision ≤ c.rev + 1
  rcases mem_putKV hx with h | ⟨h1, h2⟩
  · obtain ⟨a, b, d⟩ := hall x h
    exact ⟨a, b, by omega⟩
  · rcases h2 with h2 | ⟨kv, hm, h2⟩
    · omega
    · obtain ⟨a, b, d⟩ := hall kv hm
      omega

theorem Wf_delete (c : Client) (hwf : c.Wf) (key : String) (pfx : Bool) (r : Int)
    (hr : c.rev ≤ r) (leases : List Lease) (faults : List (Option Error))
    (log : List Request) :
    Client.Wf { kvs := deleteRange key pfx c.kvs, rev := r,
                leases := leases, faults := faults, log := log } := by
  obtain ⟨h0, hall⟩ := hwf
  refine ⟨by show 0 < r; omega, ?_⟩
  intro x hx
  show 0 < x.CreateRevision ∧ x.CreateRevision ≤ x.ModRevision ∧ x.ModRevision ≤ r
  have hx2 : x ∈ c.kvs := (List.mem_filter.mp hx).1
  obtain ⟨a, b, d⟩ := hall x hx2
  exact ⟨a, b, by omega⟩

theorem Wf_of_kvs_rev {c d : Client} (hwf : c.Wf) (hk : d.kvs = c.kvs) (hr : d.rev = c.rev) :
    d.Wf := by
  unfold Client.Wf at *
  rw [hk, hr]
  exact hwf

/-! ## Guards -/

theorem casGuards_eq (kvs : List KeyValue) (key : String) (p : KVPair) :
    (atomicPutCmps key (some p)).all (applyCompare kvs) =
      match lookup kvs key with
      | none => false
      | some kv => decide (kv.Value = p.Value) &&
          (decide (p.Index = 0) || decide (kv.ModRevision = int64 p.Index)) := by
  cases hl : lookup kvs key with
  | none =>
    by_cases hi : p.Index = 0 <;>
      simp [atomicPutCmps, applyCompare, Compare, Value, ModRevision, hl, hi]
  | some kv =>
    by_cases hi : p.Index = 0 <;>
      simp [atomicPutCmps, applyCompare, Compare, Value, ModRevision, hl, hi, compareBytes,
        compareInt]

/-- The guard of `Create` and of `AtomicPut` with a nil `previous` holds exactly when
the key does not exist. -/
theorem createGuard_eq (c : Client) (key : String) (hwf : c.Wf) :
    (atomicPutCmps key none).all (applyCompare c.kvs) = (lookup c.kvs key).isNone := by
  cases hl : lookup c.kvs key with
  | none => simp [atomicPutCmps, applyCompare, Compare, CreateRevision, hl, compareInt]
  | some kv =>
    obtain ⟨h0, _, _⟩ := hwf.2 kv (lookup_some_mem hl)
    have : ¬ kv.CreateRevision = 0 := by omega
    simp [atomicPutCmps, applyCompare, Compare, CreateRevision, hl, compareInt, this]

/-- The guard of `Update` holds exactly when the key exists. -/
theorem updateGuard_eq (c : Client) (key : String) (hwf : c.Wf) :
    [Compare (CreateRevision key) .GREATER (.int 0)].all (applyCompare c.kvs)
      = (lookup c.kvs key).isSome := by
  cases hl : lookup c.kvs key with
  | none => simp [applyCompare, Compare, CreateRevision, hl, compareInt]
  | some kv =>
    obtain ⟨h0, _, _⟩ := hwf.2 kv (lookup_some_mem hl)
    simp [applyCompare, Compare, CreateRevision, hl, compareInt, h0]

theorem Create_eq_AtomicPut (Normalize : String → String) (s : Etcd) (key value : String)
    (opts : Option WriteOptions) :
    Etcd.Create Normalize s key value opts = Etcd.AtomicPut Normalize s key value none opts := by
  unfold Etcd.Create Etcd.AtomicPut
  simp only [atomicPutCmps]
  cases h1 : Etcd.putRequest s (Normalize key) value opts with
  | mk r s1 =>
    cases r with
    | error e => rfl
    | ok req =>
      simp only []
      cases h2 : s1.client.Txn [Compare (CreateRevision (Normalize key)) .EQUAL (.int 0)] [req]
        with
      | mk r2 c2 =>
        cases r2 with
        | error e => rfl
        | ok resp =>
          cases h3 : resp.Succeeded <;> simp [h3]


/-! ## Compare-and-swap -/

/-- The guards sent by `AtomicPut` and `AtomicDelete` for a non-nil `previous` hold on
the backend exactly when the contract's condition does. -/
theorem casGuards_iff (c : Client) (key : String) (p : KVPair) (hwf : c.Wf)
    (hrev : c.rev < 2 ^ 63) (hidx : p.Index < 2 ^ 64) :
    (atomicPutCmps key (some p)).all (applyCompare c.kvs) = true ↔ casCondition c key p := by
  unfold casCondition
  cases hl : lookup c.kvs key with
  | none =>
    by_cases hi : p.Index = 0 <;>
      simp [atomicPutCmps, applyCompare, Compare, Value, ModRevision, hl, hi]
  | some kv =>
    have hmem := lookup_some_mem hl
    obtain ⟨h0, h1, h2⟩ := hwf.2 kv hmem
    have hconv := int64_eq_iff p.Index kv.ModRevision hidx (by omega) (by omega)
    by_cases hi : p.Index = 0
    · simp [atomicPutCmps, applyCompare, Compare, Value, ModRevision, hl, hi, compareBytes]
    · simp [atomicPutCmps, applyCompare, Compare, Value, ModRevision, hl, hi, compareBytes,
        compareInt]
      intro _
      constructor
      · intro e; exact (hconv.mp e.symm).symm
      · intro e; exact (hconv.mpr e.symm).symm

theorem AtomicPut_served (Normalize : String → String) (s : Etcd) (key value : String)
    (previous : Option KVPair) (opts : Option WriteOptions) (hnet : s.client.faults = []) :
    ∃ lease s1, Etcd.putRequest s (Normalize key) value opts
        = (.ok (.Put (Normalize key) value lease), s1) ∧
      s1.client.kvs = s.client.kvs ∧ s1.client.rev = s.client.rev ∧
      s1.client.faults = [] ∧ (opts = none → s1 = s ∧ lease = 0) ∧
      Etcd.AtomicPut Normalize s key value previous opts =
        if (atomicPutCmps (Normalize key) previous).all (applyCompare s.client.kvs) then
          (none, ⟨{ s1.client with
            log := s1.client.log ++
              [.Txn (atomicPutCmps (Normalize key) previous) [.Put (Normalize key) value lease]],
            kvs := putKV (s.client.rev + 1) (Normalize key) value lease s.client.kvs,
            rev := s.client.rev + 1 }⟩)
        else
          (if previous = none then some .ErrKeyExists else some .ErrKeyModified,
            ⟨{ s1.client with
              log := s1.client.log ++
                [.Txn (atomicPutCmps (Normalize key) previous)
                  [.Put (Normalize key) value lease]] }⟩) := by
  obtain ⟨lease, s1, hreq, hkvs, hrev, hf, hnone⟩ :=
    putRequest_spec s (Normalize key) value opts hnet
  refine ⟨lease, s1, hreq, hkvs, hrev, hf, hnone, ?_⟩
  simp only [Etcd.AtomicPut, hreq, Txn_served _ _ _ hf, hkvs]
  generalize (atomicPutCmps (Normalize key) previous).all (applyCompare s.client.kvs) = g
  cases g
  · by_cases hp : previous = none <;> simp [hp]
  · simp [applyOps_put, hkvs, hrev]

theorem AtomicDelete_served (Normalize : String → String) (s : Etcd) (key : String)
    (p : KVPair) (hnet : s.client.faults = []) :
    Etcd.AtomicDelete Normalize s key (some p) =
      if (atomicPutCmps (Normalize key) (some p)).all (applyCompare s.client.kvs) then
        (none, ⟨{ s.client with
          log := s.client.log ++
            [.Txn (atomicPutCmps (Normalize key) (some p)) [.Delete (Normalize key) false]],
          kvs := deleteRange (Normalize key) false s.client.kvs,
          rev := if s.client.kvs.any (matchesKey (Normalize key) false) then s.client.rev + 1
                 else s.client.rev }⟩)
      else
        (some .ErrKeyModified, ⟨{ s.client with
          log := s.client.log ++
            [.Txn (atomicPutCmps (Normalize key) (some p))
              [.Delete (Normalize key) false]] }⟩) := by
  simp only [Etcd.AtomicDelete, atomicPutCmps, OpDelete, Txn_served _ _ _ hnet]
  generalize ([Compare (Value (Normalize key)) .EQUAL (.bytes p.Value)] ++
      (if p.Index ≠ 0 then [Compare (ModRevision (Normalize key)) .EQUAL
        (.int (int64 p.Index))] else [])).all (applyCompare s.client.kvs) = g
  cases g
  · simp
  · simp [applyOps_delete]

/-- C1. For a non-nil `previous`, `AtomicPut` and `AtomicDelete` take effect exactly when
the value stored at `Normalize key` equals `previous.Value` and, only when
`previous.Index` is not zero, the key was last modified at revision `previous.Index`
(`casCondition`): then the call returns nil and the value is written at a new revision
(respectively the key is removed), every other key keeping its entry; otherwise the call
returns `ErrKeyModified` and neither the key space nor the revision changes. -/
theorem atomic_cas_takes_effect_iff (Normalize : String → String) (s : Etcd)
    (key value : String) (previous : KVPair) (opts : Option WriteOptions)
    (hwf : s.client.Wf) (hrev : s.client.rev < 2 ^ 63) (hidx : previous.Index < 2 ^ 64)
    (hnet : s.client.faults = []) :
    (casCondition s.client (Normalize key) previous →
      ((Etcd.AtomicPut Normalize s key value (some previous) opts).1 = none ∧
        (∃ kv, lookup (Etcd.AtomicPut Normalize s key value (some previous) opts).2.client.kvs
            (Normalize key) = some kv ∧ kv.Value = value ∧
            kv.ModRevision = s.client.rev + 1) ∧
        (∀ k, k ≠ Normalize key →
          lookup (Etcd.AtomicPut Normalize s key value (some previous) opts).2.client.kvs k
            = lookup s.client.kvs k)) ∧
      ((Etcd.AtomicDelete Normalize s key (some previous)).1 = none ∧
        lookup (Etcd.AtomicDelete Normalize s key (some previous)).2.client.kvs
          (Normalize key) = none ∧
        (∀ k, k ≠ Normalize key →
          lookup (Etcd.AtomicDelete Normalize s key (some previous)).2.client.kvs k
            = lookup s.client.kvs k))) ∧
    (¬ casCondition s.client (Normalize key) previous →
      ((Etcd.AtomicPut Normalize s key value (some previous) opts).1 = some .ErrKeyModified ∧
        (Etcd.AtomicPut Normalize s key value (some previous) opts).2.client.kvs
          = s.client.kvs ∧
        (Etcd.AtomicPut Normalize s key value (some previous) opts).2.client.rev
          = s.client.rev) ∧
      ((Etcd.AtomicDelete Normalize s key (some previous)).1 = some .ErrKeyModified ∧
        (Etcd.AtomicDelete Normalize s key (some previous)).2.client.kvs = s.client.kvs ∧
        (Etcd.AtomicDelete Normalize s key (some previous)).2.client.rev = s.client.rev)) := by
  obtain ⟨lease, s1, _, hkvs, hrev1, _, _, hput⟩ :=
    AtomicPut_served Normalize s key value (some previous) opts hnet
  have hdel := AtomicDelete_served Normalize s key previous hnet
  have hg := casGuards_iff s.client (Normalize key) previous hwf hrev hidx
  constructor
  · intro hc
    have hg1 := hg.mpr hc
    rw [hput, hdel]
    simp only [hg1, if_true]
    refine ⟨⟨trivial, ?_, ?_⟩, trivial, ?_, ?_⟩
    · simp only [lookup_putKV_same]
      refine ⟨_, rfl, ?_, ?_⟩
      · cases lookup s.client.kvs (Normalize key) <;> rfl
      · cases lookup s.client.kvs (Normalize key) <;> rfl
    · intro k hk
      exact lookup_putKV_other _ _ _ _ _ k hk
    · exact lookup_deleteRange_same _ _
    · intro k hk
      exact lookup_deleteRange_other _ _ k hk
  · intro hc
    have hg1 : ¬ (atomicPutCmps (Normalize key) (some previous)).all
        (applyCompare s.client.kvs) = true := fun h => hc (hg.mp h)
    rw [hput, hdel]
    simp only [hg1, if_false]
    simp [hkvs, hrev1]


/-- What `AtomicPut` does when the backend serves its requests: when the guards hold
the value is written at the next revision and nil is returned; otherwise the key space
and the revision are untouched and the error is `ErrKeyExists` for a nil `previous`,
`ErrKeyModified` otherwise.  The resulting state is again well formed and fault free. -/
theorem AtomicPut_result (Normalize : String → String) (s : Etcd) (key value : String)
    (previous : Option KVPair) (opts : Option WriteOptions) (hwf : s.client.Wf)
    (hnet : s.client.faults = []) :
    ∃ lease : Int,
      (Etcd.AtomicPut Normalize s key value previous opts).2.client.faults = [] ∧
      (Etcd.AtomicPut Normalize s key value previous opts).2.client.Wf ∧
      ((atomicPutCmps (Normalize key) previous).all (applyCompare s.client.kvs) = true →
        (Etcd.AtomicPut Normalize s key value previous opts).1 = none ∧
        (Etcd.AtomicPut Normalize s key value previous opts).2.client.kvs
          = putKV (s.client.rev + 1) (Normalize key) value lease s.client.kvs ∧
        (Etcd.AtomicPut Normalize s key value previous opts).2.client.rev
          = s.client.rev + 1) ∧
      ((atomicPutCmps (Normalize key) previous).all (applyCompare s.client.kvs) = false →
        (Etcd.AtomicPut Normalize s key value previous opts).1
          = (if previous = none then some .ErrKeyExists else some .ErrKeyModified) ∧
        (Etcd.AtomicPut Normalize s key value previous opts).2.client.kvs = s.client.kvs ∧
        (Etcd.AtomicPut Normalize s key value previous opts).2.client.rev = s.client.rev) := by
  obtain ⟨lease, s1, _, hkvs, hrev1, hf, _, hput⟩ :=
    AtomicPut_served Normalize s key value previous opts hnet
  refine ⟨lease, ?_⟩
  rw [hput]
  cases hg : (atomicPutCmps (Normalize key) previous).all (applyCompare s.client.kvs)
  · simp only [Bool.false_eq_true, if_false]
    refine ⟨hf, Wf_of_kvs_rev hwf hkvs hrev1, ?_⟩
    simp [hkvs, hrev1]
  · simp only [if_true]
    refine ⟨hf, Wf_put s.client hwf _ _ _ _ _ _, ?_⟩
    simp

/-- One order of two compare-and-swap writes carrying the same `previous`. -/
theorem AtomicPut_then_AtomicPut (Normalize : String → String) (s : Etcd)
    (k v w : String) (p : KVPair) (o1 o2 : Option WriteOptions)
    (hwf : s.client.Wf) (hrev : s.client.rev < 2 ^ 63) (hidx : p.Index < 2 ^ 64)
    (hnet : s.client.faults = []) (hmatch : casCondition s.client (Normalize k) p)
    (hdist : p.Index ≠ 0 ∨ v ≠ p.Value) :
    (Etcd.AtomicPut Normalize s k v (some p) o1).1 = none ∧
    (Etcd.AtomicPut Normalize (Etcd.AtomicPut Normalize s k v (some p) o1).2 k w (some p) o2).1
      = some .ErrKeyModified ∧
    ∃ kv, lookup (Etcd.AtomicPut Normalize
        (Etcd.AtomicPut Normalize s k v (some p) o1).2 k w (some p) o2).2.client.kvs
        (Normalize k) = some kv ∧ kv.Value = v := by
  obtain ⟨l1, hf1, hwf1, hok1, _⟩ := AtomicPut_result Normalize s k v (some p) o1 hwf hnet
  have hg1 := (casGuards_iff s.client (Normalize k) p hwf hrev hidx).mpr hmatch
  obtain ⟨e1, hk1, hr1⟩ := hok1 hg1
  obtain ⟨l2, _, _, _, hfail2⟩ :=
    AtomicPut_result Normalize (Etcd.AtomicPut Normalize s k v (some p) o1).2 k w (some p) o2
      hwf1 hf1
  -- the entry of the key after the first write
  obtain ⟨kv0, hl0, hv0, hm0⟩ := hmatch
  have hl1 : lookup (Etcd.AtomicPut Normalize s k v (some p) o1).2.client.kvs (Normalize k)
      = some { kv0 with ModRevision := s.client.rev + 1, Version := kv0.Version + 1,
                        Value := v, Lease := l1 } := by
    rw [hk1, lookup_putKV_same, hl0]
  have hg2 : (atomicPutCmps (Normalize k) (some p)).all
      (applyCompare (Etcd.AtomicPut Normalize s k v (some p) o1).2.client.kvs) = false := by
    rw [casGuards_eq, hl1]
    rcases hdist with hi | hv
    · have hmod := hm0 hi
      obtain ⟨_, _, hle⟩ := hwf.2 kv0 (lookup_some_mem hl0)
      have hconv := int64_eq_iff p.Index kv0.ModRevision hidx (by
        have := hwf.2 kv0 (lookup_some_mem hl0); omega) (by omega)
      have h64 : int64 p.Index = kv0.ModRevision := hconv.mpr hmod.symm
      have hne : ¬ s.client.rev + 1 = int64 p.Index := by omega
      simp [hi, hne]
    · simp [hv]
  obtain ⟨e2, hk2, _⟩ := hfail2 hg2
  refine ⟨e1, ?_, ?_⟩
  · rw [e2]; simp
  · rw [hk2, hl1]
    exact ⟨_, rfl, rfl⟩

/-- C2 (amended). When `previous` matches the current state of the key and either
`previous.Index` is not zero or neither written value equals `previous.Value`, two
`AtomicPut` calls carrying that same `previous`, run as two backend transactions in
either order, end with the first one succeeding, the second one returning
`ErrKeyModified`, and the value of the first one stored. -/
theorem AtomicPut_same_previous_one_succeeds (Normalize : String → String) (s : Etcd)
    (k v w : String) (p : KVPair) (o1 o2 : Option WriteOptions)
    (hwf : s.client.Wf) (hrev : s.client.rev < 2 ^ 63) (hidx : p.Index < 2 ^ 64)
    (hnet : s.client.faults = []) (hmatch : casCondition s.client (Normalize k) p)
    (hdist : p.Index ≠ 0 ∨ (v ≠ p.Value ∧ w ≠ p.Value)) :
    ((Etcd.AtomicPut Normalize s k v (some p) o1).1 = none ∧
      (Etcd.AtomicPut Normalize (Etcd.AtomicPut Normalize s k v (some p) o1).2 k w (some p)
        o2).1 = some .ErrKeyModified ∧
      ∃ kv, lookup (Etcd.AtomicPut Normalize
          (Etcd.AtomicPut Normalize s k v (some p) o1).2 k w (some p) o2).2.client.kvs
          (Normalize k) = some kv ∧ kv.Value = v) ∧
    ((Etcd.AtomicPut Normalize s k w (some p) o2).1 = none ∧
      (Etcd.AtomicPut Normalize (Etcd.AtomicPut Normalize s k w (some p) o2).2 k v (some p)
        o1).1 = some .ErrKeyModified ∧
      ∃ kv, lookup (Etcd.AtomicPut Normalize
          (Etcd.AtomicPut Normalize s k w (some p) o2).2 k v (some p) o1).2.client.kvs
          (Normalize k) = some kv ∧ kv.Value = w) :=
  ⟨AtomicPut_then_AtomicPut Normalize s k v w p o1 o2 hwf hrev hidx hnet hmatch
      (hdist.imp id And.left),
    AtomicPut_then_AtomicPut Normalize s k w v p o2 o1 hwf hrev hidx hnet hmatch
      (hdist.imp id And.right)⟩


/-! ## Conditional writes on existence -/

/-- C3. `AtomicPut` with a nil `previous` sends the single guard "create revision of
`Normalize key` equals 0": when the key does not exist the value is written and nil is
returned; when it exists the call returns `ErrKeyExists` and neither the key space nor
the revision changes. -/
theorem AtomicPut_nil_previous_creates (Normalize : String → String) (s : Etcd)
    (key value : String) (opts : Option WriteOptions) (hwf : s.client.Wf)
    (hnet : s.client.faults = []) :
    atomicPutCmps (Normalize key) none
      = [{ Key := Normalize key, Target := .CREATE, Result := .EQUAL, Value := .int 0 }] ∧
    (lookup s.client.kvs (Normalize key) = none →
      (Etcd.AtomicPut Normalize s key value none opts).1 = none ∧
      ∃ kv, lookup (Etcd.AtomicPut Normalize s key value none opts).2.client.kvs
          (Normalize key) = some kv ∧ kv.Value = value) ∧
    (lookup s.client.kvs (Normalize key) ≠ none →
      (Etcd.AtomicPut Normalize s key value none opts).1 = some .ErrKeyExists ∧
      (Etcd.AtomicPut Normalize s key value none opts).2.client.kvs = s.client.kvs ∧
      (Etcd.AtomicPut Normalize s key value none opts).2.client.rev = s.client.rev) := by
  obtain ⟨lease, _, _, hok, hfail⟩ := AtomicPut_result Normalize s key value none opts hwf hnet
  have hg := createGuard_eq s.client (Normalize key) hwf
  refine ⟨rfl, ?_, ?_⟩
  · intro hl
    obtain ⟨e, hk, _⟩ := hok (by rw [hg, hl]; rfl)
    refine ⟨e, ?_⟩
    rw [hk, lookup_putKV_same, hl]
    exact ⟨_, rfl, rfl⟩
  · intro hl
    obtain ⟨kv, hkv⟩ := Option.ne_none_iff_exists'.mp hl
    obtain ⟨e, hk, hr⟩ := hfail (by rw [hg, hkv]; rfl)
    exact ⟨by simpa using e, hk, hr⟩

/-- C4. `Create` writes the value exactly when the key does not exist: on an absent key
it returns nil and stores the value; on an existing key it returns `ErrKeyExists` and
neither the key space nor the revision changes.  Hence a `Create` that follows a
successful `Create` of the same key returns `ErrKeyExists` and the first value stays. -/
theorem Create_fails_iff_key_exists (Normalize : String → String) (s : Etcd)
    (k v1 v2 : String) (o1 o2 : Option WriteOptions) (hwf : s.client.Wf)
    (hnet : s.client.faults = []) :
    (lookup s.client.kvs (Normalize k) = none →
      (Etcd.Create Normalize s k v1 o1).1 = none ∧
      ∃ kv, lookup (Etcd.Create Normalize s k v1 o1).2.client.kvs (Normalize k) = some kv ∧
        kv.Value = v1) ∧
    (lookup s.client.kvs (Normalize k) ≠ none →
      (Etcd.Create Normalize s k v1 o1).1 = some .ErrKeyExists ∧
      (Etcd.Create Normalize s k v1 o1).2.client.kvs = s.client.kvs ∧
      (Etcd.Create Normalize s k v1 o1).2.client.rev = s.client.rev) ∧
    ((Etcd.Create Normalize s k v1 o1).1 = none →
      (Etcd.Create Normalize (Etcd.Create Normalize s k v1 o1).2 k v2 o2).1
        = some .ErrKeyExists ∧
      ∃ kv, lookup (Etcd.Create Normalize (Etcd.Create Normalize s k v1 o1).2 k v2
          o2).2.client.kvs (Normalize k) = some kv ∧ kv.Value = v1) := by
  simp only [Create_eq_AtomicPut]
  obtain ⟨l1, hf1, hwf1, hok, hfail⟩ := AtomicPut_result Normalize s k v1 none o1 hwf hnet
  have hg := createGuard_eq s.client (Normalize k) hwf
  have habsent : lookup s.client.kvs (Normalize k) = none →
      (Etcd.AtomicPut Normalize s k v1 none o1).1 = none ∧
      ∃ kv, lookup (Etcd.AtomicPut Normalize s k v1 none o1).2.client.kvs (Normalize k)
        = some kv ∧ kv.Value = v1 := by
    intro hl
    obtain ⟨e, hk, _⟩ := hok (by rw [hg, hl]; rfl)
    refine ⟨e, ?_⟩
    rw [hk, lookup_putKV_same, hl]
    exact ⟨_, rfl, rfl⟩
  have hpresent : lookup s.client.kvs (Normalize k) ≠ none →
      (Etcd.AtomicPut Normalize s k v1 none o1).1 = some .ErrKeyExists ∧
      (Etcd.AtomicPut Normalize s k v1 none o1).2.client.kvs = s.client.kvs ∧
      (Etcd.AtomicPut Normalize s k v1 none o1).2.client.rev = s.client.rev := by
    intro hl
    obtain ⟨kv, hkv⟩ := Option.ne_none_iff_exists'.mp hl
    obtain ⟨e, hk, hr⟩ := hfail (by rw [hg, hkv]; rfl)
    exact ⟨by simpa using e, hk, hr⟩
  refine ⟨habsent, hpresent, ?_⟩
  intro hsucc
  -- the first call succeeded, so the key was absent and now holds `v1`
  have hl : lookup s.client.kvs (Normalize k) = none := by
    by_contra hne
    have := (hpresent hne).1
    rw [hsucc] at this
    cases this
  obtain ⟨_, kv, hkv, hval⟩ := habsent hl
  obtain ⟨l2, _, _, _, hfail2⟩ :=
    AtomicPut_result Normalize (Etcd.AtomicPut Normalize s k v1 none o1).2 k v2 none o2 hwf1 hf1
  have hg2 := createGuard_eq (Etcd.AtomicPut Normalize s k v1 none o1).2.client (Normalize k)
    hwf1
  obtain ⟨e2, hk2, _⟩ := hfail2 (by rw [hg2, hkv]; rfl)
  refine ⟨by simpa using e2, kv, ?_, hval⟩
  rw [hk2, hkv]

theorem Update_served (Normalize : String → String) (s : Etcd) (key value : String)
    (hnet : s.client.faults = []) :
    Etcd.Update Normalize s key value none =
      if [Compare (CreateRevision (Normalize key)) .GREATER (.int 0)].all
          (applyCompare s.client.kvs) then
        (none, ⟨{ s.client with
          log := s.client.log ++
            [.Txn [Compare (CreateRevision (Normalize key)) .GREATER (.int 0)]
              [.Put (Normalize key) value 0]],
          kvs := putKV (s.client.rev + 1) (Normalize key) value 0 s.client.kvs,
          rev := s.client.rev + 1 }⟩)
      else
        (some .ErrKeyNotFound, ⟨{ s.client with
          log := s.client.log ++
            [.Txn [Compare (CreateRevision (Normalize key)) .GREATER (.int 0)]
              [.Put (Normalize key) value 0]] }⟩) := by
  simp only [Etcd.Update, putRequest_served s _ _ none hnet, Txn_served _ _ _ hnet]
  generalize [Compare (CreateRevision (Normalize key)) .GREATER (.int 0)].all
    (applyCompare s.client.kvs) = g
  cases g
  · simp
  · simp [applyOps_put]

/-- C5. With nil write options `Update` sends exactly one request, a transaction
guarded by "create revision of `Normalize key` is greater than 0" around the put: on a
key that does not exist it returns `ErrKeyNotFound` and the key space, the revision and
the leases are untouched, so no key is created; on an existing key it writes the value
and returns nil. -/
theorem Update_fails_unless_key_exists (Normalize : String → String) (s : Etcd)
    (k v : String) (hwf : s.client.Wf) (hnet : s.client.faults = []) :
    (Etcd.Update Normalize s k v none).2.client.log = s.client.log ++
      [.Txn [{ Key := Normalize k, Target := .CREATE, Result := .GREATER, Value := .int 0 }]
        [.Put (Normalize k) v 0]] ∧
    (lookup s.client.kvs (Normalize k) = none →
      (Etcd.Update Normalize s k v none).1 = some .ErrKeyNotFound ∧
      (Etcd.Update Normalize s k v none).2.client.kvs = s.client.kvs ∧
      (Etcd.Update Normalize s k v none).2.client.rev = s.client.rev ∧
      (Etcd.Update Normalize s k v none).2.client.leases = s.client.leases ∧
      lookup (Etcd.Update Normalize s k v none).2.client.kvs (Normalize k) = none) ∧
    (lookup s.client.kvs (Normalize k) ≠ none →
      (Etcd.Update Normalize s k v none).1 = none ∧
      ∃ kv, lookup (Etcd.Update Normalize s k v none).2.client.kvs (Normalize k) = some kv ∧
        kv.Value = v) := by
  have hg := updateGuard_eq s.client (Normalize k) hwf
  rw [Update_served Normalize s k v hnet, hg]
  refine ⟨?_, ?_, ?_⟩
  · cases (lookup s.client.kvs (Normalize k)).isSome <;> rfl
  · intro hl
    rw [hl]
    exact ⟨rfl, rfl, rfl, rfl, hl⟩
  · intro hl
    obtain ⟨kv, hkv⟩ := Option.ne_none_iff_exists'.mp hl
    rw [hkv]
    refine ⟨rfl, ?_⟩
    show ∃ kv', lookup (putKV (s.client.rev + 1) (Normalize k) v 0 s.client.kvs) (Normalize k)
      = some kv' ∧ kv'.Value = v
    rw [lookup_putKV_same, hkv]
    exact ⟨_, rfl, rfl⟩


/-! ## Requests handed to the backend -/

theorem sentOnly_refl (P : Request → Prop) (c : Client) : sentOnly P c c :=
  ⟨[], by simp, by simp⟩

theorem sentOnly_trans {P : Request → Prop} {a b c : Client} (h1 : sentOnly P a b)
    (h2 : sentOnly P b c) : sentOnly P a c := by
  obtain ⟨l1, e1, p1⟩ := h1
  obtain ⟨l2, e2, p2⟩ := h2
  refine ⟨l1 ++ l2, by rw [e2, e1, List.append_assoc], ?_⟩
  intro r hr
  rcases List.mem_append.mp hr with h | h
  · exact p1 r h
  · exact p2 r h

theorem roundTrip_log (c : Client) (r : Request) : (c.roundTrip r).2.log = c.log ++ [r] := by
  unfold Client.roundTrip
  cases c.faults <;> rfl

theorem applyOps_log (c : Client) (ops : List Op) : (c.applyOps ops).log = c.log := rfl

theorem Get_log (c : Client) (key : String) (pfx : Bool) :
    (c.Get key pfx).2.log = c.log ++ [.Get key pfx] := by
  have h := roundTrip_log c (.Get key pfx)
  unfold Client.Get
  cases hr : c.roundTrip (.Get key pfx) with
  | mk e c1 =>
    rw [hr] at h
    cases e <;> simpa using h

theorem Grant_log (c : Client) (ttl : Int) : (c.Grant ttl).2.log = c.log ++ [.Grant ttl] := by
  have h := roundTrip_log c (.Grant ttl)
  unfold Client.Grant
  cases hr : c.roundTrip (.Grant ttl) with
  | mk e c1 =>
    rw [hr] at h
    cases e <;> simpa using h

theorem Put_log (c : Client) (key val : String) (lease : Option Int) :
    (c.Put key val lease).2.log = c.log ++ [.Put key val (lease.getD 0)] := by
  have h := roundTrip_log c (.Put key val (lease.getD 0))
  unfold Client.Put
  cases hr : c.roundTrip (.Put key val (lease.getD 0)) with
  | mk e c1 =>
    rw [hr] at h
    cases e <;> simpa [applyOps_log] using h

theorem Delete_log (c : Client) (key : String) (pfx : Bool) :
    (c.Delete key pfx).2.log = c.log ++ [.Delete key pfx] := by
  have h := roundTrip_log c (.Delete key pfx)
  unfold Client.Delete
  cases hr : c.roundTrip (.Delete key pfx) with
  | mk e c1 =>
    rw [hr] at h
    cases e <;> simpa [applyOps_log] using h

theorem Txn_log (c : Client) (cmps : List Cmp) (ops : List Op) :
    (c.Txn cmps ops).2.log = c.log ++ [.Txn cmps ops] := by
  have h := roundTrip_log c (.Txn cmps ops)
  unfold Client.Txn
  cases hr : c.roundTrip (.Txn cmps ops) with
  | mk e c1 =>
    rw [hr] at h
    cases e with
    | some e => simpa using h
    | none =>
      simp only []
      split <;> simpa [applyOps_log] using h

theorem sentOnly_one {P : Request → Prop} {c c1 : Client} {r : Request}
    (h : c1.log = c.log ++ [r]) (hr : P r) : sentOnly P c c1 :=
  ⟨[r], h, by simpa using hr⟩

theorem putRequest_sentOnly (P : Request → Prop) (s : Etcd) (key value : String)
    (opts : Option WriteOptions) (hP : ∀ ttl, P (.Grant ttl)) :
    sentOnly P s.client (Etcd.putRequest s key value opts).2.client ∧
    ∀ req, (Etcd.putRequest s key value opts).1 = .ok req → ∃ lease, req = .Put key value lease := by
  cases opts with
  | none => exact ⟨sentOnly_refl P _, fun req h => ⟨0, by
      simp [Etcd.putRequest, OpPut] at h; exact h.symm⟩⟩
  | some o =>
    have hl := Grant_log s.client o.TTL.Seconds
    cases hg : s.client.Grant o.TTL.Seconds with
    | mk r c1 =>
      rw [hg] at hl
      cases r with
      | error e =>
        simp only [Etcd.putRequest, hg]
        exact ⟨sentOnly_one hl (hP _), fun req h => by simp at h⟩
      | ok resp =>
        simp only [Etcd.putRequest, hg]
        refine ⟨sentOnly_one hl (hP _), fun req h => ⟨resp.ID, ?_⟩⟩
        simp [OpPut] at h
        exact h.symm


theorem addresses_grant (K : String) (ttl : Int) : addresses K (.Grant ttl) := by
  simp [addresses, Request.keys]

theorem addresses_txn_put (K : String) (cmps : List Cmp) (value : String) (lease : Int)
    (h : ∀ c ∈ cmps, c.Key = K) : addresses K (.Txn cmps [.Put K value lease]) := by
  intro x hx
  simp only [Request.keys, List.mem_append, List.mem_map, List.mem_singleton] at hx
  rcases hx with ⟨c, hc, rfl⟩ | ⟨op, rfl, rfl⟩
  · exact h c hc
  · rfl

theorem atomicPutCmps_key (K : String) (previous : Option KVPair) :
    ∀ c ∈ atomicPutCmps K previous, c.Key = K := by
  intro c hc
  cases previous with
  | none =>
    simp [atomicPutCmps, Compare, CreateRevision] at hc
    rw [hc]
  | some p =>
    by_cases hi : p.Index = 0
    · simp [atomicPutCmps, Compare, Value, hi] at hc
      rw [hc]
    · simp [atomicPutCmps, Compare, Value, ModRevision, hi] at hc
      rcases hc with hc | hc <;> rw [hc]

theorem get_sentOnly (Normalize : String → String) (s : Etcd) (key : String) (pfx : Bool) :
    sentOnly (addresses (Normalize key)) s.client (Etcd.get Normalize s key pfx).2.client := by
  have hl := Get_log s.client (Normalize key) pfx
  have hP : addresses (Normalize key) (.Get (Normalize key) pfx) := by
    simp [addresses, Request.keys]
  cases hg : s.client.Get (Normalize key) pfx with
  | mk r c1 =>
    rw [hg] at hl
    cases r with
    | error e =>
      simp only [Etcd.get, hg]
      exact sentOnly_one hl hP
    | ok resp =>
      simp only [Etcd.get, hg]
      split <;> exact sentOnly_one hl hP

theorem Get_sentOnly (Normalize : String → String) (s : Etcd) (key : String) :
    sentOnly (addresses (Normalize key)) s.client (Etcd.Get Normalize s key).2.client := by
  have h := get_sentOnly Normalize s key false
  cases hg : Etcd.get Normalize s key false with
  | mk r s1 =>
    rw [hg] at h
    cases r with
    | error e => simpa only [Etcd.Get, hg] using h
    | ok pairs =>
      cases pairs with
      | nil => simpa only [Etcd.Get, hg] using h
      | cons p ps => simpa only [Etcd.Get, hg] using h

theorem Exists_sentOnly (Normalize : String → String) (s : Etcd) (key : String) :
    sentOnly (addresses (Normalize key)) s.client (Etcd.Exists Normalize s key).2.client := by
  have h := Get_sentOnly Normalize s key
  cases hg : Etcd.Get Normalize s key with
  | mk r s1 =>
    rw [hg] at h
    cases r with
    | ok p => simpa only [Etcd.Exists, hg] using h
    | panic p => simpa only [Etcd.Exists, hg] using h
    | err e =>
      simp only [Etcd.Exists, hg]
      split <;> exact h

theorem List_sentOnly (Normalize : String → String) (s : Etcd) (directory : String) :
    sentOnly (addresses (Normalize (Normalize directory))) s.client
      (Etcd.List Normalize s directory).2.client := by
  have h := get_sentOnly Normalize s (Normalize directory) true
  cases hg : Etcd.get Normalize s (Normalize directory) true with
  | mk r s1 =>
    rw [hg] at h
    cases r with
    | error e => simpa only [Etcd.List, hg] using h
    | ok pairs => simpa only [Etcd.List, hg] using h

theorem Put_sentOnly (Normalize : String → String) (s : Etcd) (key value : String)
    (opts : Option WriteOptions) :
    sentOnly (addresses (Normalize key)) s.client
      (Etcd.Put Normalize s key value opts).2.client := by
  have hP : ∀ l, addresses (Normalize key) (.Put (Normalize key) value l) := by
    intro l; simp [addresses, Request.keys]
  cases opts with
  | none =>
    have hl := Put_log s.client (Normalize key) value none
    cases hp : s.client.Put (Normalize key) value none with
    | mk r c1 =>
      rw [hp] at hl
      cases r <;> (simp only [Etcd.Put, hp]; exact sentOnly_one hl (hP _))
  | some o =>
    have hl := Grant_log s.client o.TTL.Seconds
    cases hg : s.client.Grant o.TTL.Seconds with
    | mk r c1 =>
      rw [hg] at hl
      have h1 : sentOnly (addresses (Normalize key)) s.client c1 :=
        sentOnly_one hl (addresses_grant _ _)
      cases r with
      | error e => simpa only [Etcd.Put, hg] using h1
      | ok resp =>
        have hl2 := Put_log c1 (Normalize key) value (some resp.ID)
        cases hp : c1.Put (Normalize key) value (some resp.ID) with
        | mk r2 c2 =>
          rw [hp] at hl2
          have h2 : sentOnly (addresses (Normalize key)) c1 c2 := sentOnly_one hl2 (hP _)
          cases r2 <;> (simp only [Etcd.Put, hg, hp]; exact sentOnly_trans h1 h2)

theorem Delete_sentOnly (Normalize : String → String) (s : Etcd) (key : String) :
    sentOnly (addresses (Normalize key)) s.client (Etcd.Delete Normalize s key).2.client := by
  have hl := Delete_log s.client (Normalize key) false
  have hP : addresses (Normalize key) (.Delete (Normalize key) false) := by
    simp [addresses, Request.keys]
  cases hd : s.client.Delete (Normalize key) false with
  | mk r c1 =>
    rw [hd] at hl
    cases r <;> (simp only [Etcd.Delete, hd]; exact sentOnly_one hl hP)

theorem DeleteTree_sentOnly (Normalize : String → String) (s : Etcd) (directory : String) :
    sentOnly (addresses (Normalize directory)) s.client
      (Etcd.DeleteTree Normalize s directory).2.client := by
  have hl := Delete_log s.client (Normalize directory) true
  have hP : addresses (Normalize directory) (.Delete (Normalize directory) true) := by
    simp [addresses, Request.keys]
  cases hd : s.client.Delete (Normalize directory) true with
  | mk r c1 =>
    rw [hd] at hl
    cases r <;> (simp only [Etcd.DeleteTree, hd]; exact sentOnly_one hl hP)

theorem watch_sentOnly (Normalize : String → String) (s : Etcd) (key : String) (pfx : Bool)
    (opt : Option WatchOptions) :
    sentOnly (addresses (Normalize key)) s.client (Etcd.watch Normalize s key pfx opt).client := by
  refine sentOnly_one (roundTrip_log _ _) ?_
  simp [addresses, Request.keys]

/-- A conditional put (`Update`, `Create`, `AtomicPut`): the optional grant, then one
transaction whose guards and whose write all address `K`. -/
theorem txnPut_sentOnly (K : String) (s : Etcd) (value : String)
    (opts : Option WriteOptions) (cmps : List Cmp) (hc : ∀ c ∈ cmps, c.Key = K)
    (f : Except Error TxnResponse × Client → Option Error × Etcd)
    (hf : ∀ x, (f x).2.client = x.2) :
    sentOnly (addresses K) s.client
      (match Etcd.putRequest s K value opts with
        | (.error err, s1) => ((some err, s1) : Option Error × Etcd)
        | (.ok req, s1) => f (s1.client.Txn cmps [req])).2.client := by
  obtain ⟨h1, h2⟩ := putRequest_sentOnly (addresses K) s K value opts (addresses_grant K)
  cases hr : Etcd.putRequest s K value opts with
  | mk r s1 =>
    rw [hr] at h1 h2
    cases r with
    | error e => exact h1
    | ok req =>
      obtain ⟨lease, rfl⟩ := h2 req rfl
      simp only [hf]
      exact sentOnly_trans h1 (sentOnly_one (Txn_log _ _ _) (addresses_txn_put K cmps _ _ hc))

theorem Update_sentOnly (Normalize : String → String) (s : Etcd) (key value : String)
    (opts : Option WriteOptions) :
    sentOnly (addresses (Normalize key)) s.client
      (Etcd.Update Normalize s key value opts).2.client := by
  have h := txnPut_sentOnly (Normalize key) s value opts
    [Compare (CreateRevision (Normalize key)) .GREATER (.int 0)]
    (by intro c hc; simp [Compare, CreateRevision] at hc; rw [hc])
    (fun x => match x with
      | (.error err, c) => (some err, ⟨c⟩)
      | (.ok resp, c) => if !resp.Succeeded then (some .ErrKeyNotFound, ⟨c⟩) else (none, ⟨c⟩))
    (by
      rintro ⟨r, c⟩
      cases r with
      | error e => rfl
      | ok resp => simp only []; split <;> rfl)
  exact h

theorem AtomicPut_sentOnly (Normalize : String → String) (s : Etcd) (key value : String)
    (previous : Option KVPair) (opts : Option WriteOptions) :
    sentOnly (addresses (Normalize key)) s.client
      (Etcd.AtomicPut Normalize s key value previous opts).2.client := by
  have h := txnPut_sentOnly (Normalize key) s value opts
    (atomicPutCmps (Normalize key) previous) (atomicPutCmps_key _ _)
    (fun x => match x with
      | (.error err, c) => (some err, ⟨c⟩)
      | (.ok resp, c) =>
        if resp.Succeeded then (none, ⟨c⟩)
        else if previous = none then (some .ErrKeyExists, ⟨c⟩)
        else (some .ErrKeyModified, ⟨c⟩))
    (by
      rintro ⟨r, c⟩
      cases r with
      | error e => rfl
      | ok resp => simp only []; split <;> [rfl; (split <;> rfl)])
  exact h

theorem AtomicDelete_sentOnly (Normalize : String → String) (s : Etcd) (key : String)
    (previous : Option KVPair) :
    sentOnly (addresses (Normalize key)) s.client
      (Etcd.AtomicDelete Normalize s key previous).2.client := by
  cases previous with
  | none => exact sentOnly_refl _ _
  | some p =>
    have hP : addresses (Normalize key)
        (.Txn (atomicPutCmps (Normalize key) (some p)) [OpDelete (Normalize key)]) := by
      intro x hx
      simp only [Request.keys, List.mem_append, List.mem_map, List.mem_singleton, OpDelete]
        at hx
      rcases hx with ⟨c, hc, rfl⟩ | ⟨op, rfl, rfl⟩
      · exact atomicPutCmps_key _ _ c hc
      · rfl
    have hl := Txn_log s.client (atomicPutCmps (Normalize key) (some p))
      [OpDelete (Normalize key)]
    have h1 := sentOnly_one hl hP
    simp only [atomicPutCmps] at h1
    cases ht : s.client.Txn ([Compare (Value (Normalize key)) .EQUAL (.bytes p.Value)] ++
      (if p.Index ≠ 0 then [Compare (ModRevision (Normalize key)) .EQUAL
        (.int (int64 p.Index))] else [])) [OpDelete (Normalize key)] with
    | mk r c1 =>
      rw [ht] at h1
      cases r with
      | error e => simpa only [Etcd.AtomicDelete, ht] using h1
      | ok resp =>
        simp only [Etcd.AtomicDelete, ht]
        split <;> exact h1

/-- Every request that `Get`, `Exists`, `Put`, `Update`, `Create`, `Delete`,
`DeleteTree`, `Watch`, `WatchTree`, `AtomicPut` and `AtomicDelete` send addresses
`Normalize key`, whatever the backend answers; `List` normalizes twice and addresses
`Normalize (Normalize directory)`. -/
theorem requests_address_normalized_key (Normalize : String → String) (s : Etcd)
    (key value : String) (previous : Option KVPair) (opts : Option WriteOptions)
    (wopt : Option WatchOptions) :
    sentOnly (addresses (Normalize key)) s.client (Etcd.Get Normalize s key).2.client ∧
    sentOnly (addresses (Normalize key)) s.client (Etcd.Exists Normalize s key).2.client ∧
    sentOnly (addresses (Normalize key)) s.client
      (Etcd.Put Normalize s key value opts).2.client ∧
    sentOnly (addresses (Normalize key)) s.client
      (Etcd.Update Normalize s key value opts).2.client ∧
    sentOnly (addresses (Normalize key)) s.client
      (Etcd.Create Normalize s key value opts).2.client ∧
    sentOnly (addresses (Normalize key)) s.client (Etcd.Delete Normalize s key).2.client ∧
    sentOnly (addresses (Normalize key)) s.client
      (Etcd.DeleteTree Normalize s key).2.client ∧
    sentOnly (addresses (Normalize key)) s.client (Etcd.Watch Normalize s key wopt).client ∧
    sentOnly (addresses (Normalize key)) s.client
      (Etcd.WatchTree Normalize s key wopt).client ∧
    sentOnly (addresses (Normalize key)) s.client
      (Etcd.AtomicPut Normalize s key value previous opts).2.client ∧
    sentOnly (addresses (Normalize key)) s.client
      (Etcd.AtomicDelete Normalize s key previous).2.client ∧
    sentOnly (addresses (Normalize (Normalize key))) s.client
      (Etcd.List Normalize s key).2.client := by
  refine ⟨Get_sentOnly _ _ _, Exists_sentOnly _ _ _, Put_sentOnly _ _ _ _ _,
    Update_sentOnly _ _ _ _ _, ?_, Delete_sentOnly _ _ _, DeleteTree_sentOnly _ _ _,
    watch_sentOnly _ _ _ _ _, watch_sentOnly _ _ _ _ _, AtomicPut_sentOnly _ _ _ _ _ _,
    AtomicDelete_sentOnly _ _ _ _, List_sentOnly _ _ _⟩
  rw [Create_eq_AtomicPut]
  exact AtomicPut_sentOnly _ _ _ _ _ _


/-! ## Locks -/

theorem NewLock_pfx (s : Etcd) (key : String) (opt : Option LockOptions) :
    (Etcd.NewLock s key opt).1.pfx = key ++ "/" := by
  cases opt with
  | none =>
    simp only [Etcd.NewLock]
    cases NewSession s.client none with
    | mk r c => cases r <;> rfl
  | some o =>
    simp only [Etcd.NewLock]
    cases NewSession s.client (some o.TTL.Seconds) with
    | mk r c => cases r <;> rfl

/-- C6 (the code at the failing input). `NewLock` binds the mutex to the key as given,
not to its normal form: the mutex of `NewLock "a"` has prefix `a/` and the mutex of
`NewLock "/a"` has prefix `/a/`, two different mutexes for one logical key, while the
other operations send `Normalize key`. -/
theorem NewLock_key_not_normalized (s : Etcd) (key : String) (opt : Option LockOptions) :
    (Etcd.NewLock s key opt).1.pfx = key ++ "/" ∧
    (Etcd.NewLock s "a" opt).1.pfx = "a/" ∧
    (Etcd.NewLock s "/a" opt).1.pfx = "/a/" ∧
    (Etcd.Put normalizeModel ⟨Client.empty⟩ "a" "x" none).2.client.log = [.Put "/a" "x" 0] ∧
    (Etcd.Put normalizeModel ⟨Client.empty⟩ "/a" "x" none).2.client.log = [.Put "/a" "x" 0] := by
  refine ⟨NewLock_pfx s key opt, ?_, ?_, by decide, by decide⟩
  · rw [NewLock_pfx]; decide
  · rw [NewLock_pfx]; decide

/-! ## Leases -/

theorem Put_lease_served (Normalize : String → String) (s : Etcd) (k v : String)
    (opts : Option WriteOptions) (hnet : s.client.faults = []) :
    (Etcd.Put Normalize s k v opts).2.client.log = s.client.log ++
      (match opts with
        | none => [.Put (Normalize k) v 0]
        | some o => [.Grant o.TTL.Seconds, .Put (Normalize k) v (s.client.leases.length + 1)]) := by
  cases opts with
  | none => simp [Etcd.Put, Put_served _ _ _ _ hnet, applyOps_log]
  | some o =>
    simp only [Etcd.Put, Grant_served _ _ hnet]
    rw [Put_served _ _ _ _ (by exact hnet)]
    simp [applyOps_log]

theorem txnPut_lease_served (K : String) (s : Etcd) (value : String)
    (opts : Option WriteOptions) (cmps : List Cmp) (hnet : s.client.faults = [])
    (f : Except Error TxnResponse × Client → Option Error × Etcd)
    (hf : ∀ x, (f x).2.client = x.2) :
    (match Etcd.putRequest s K value opts with
      | (.error err, s1) => ((some err, s1) : Option Error × Etcd)
      | (.ok req, s1) => f (s1.client.Txn cmps [req])).2.client.log = s.client.log ++
      (match opts with
        | none => [.Txn cmps [.Put K value 0]]
        | some o => [.Grant o.TTL.Seconds,
            .Txn cmps [.Put K value (s.client.leases.length + 1)]]) := by
  rw [putRequest_served s K value opts hnet]
  cases opts with
  | none => simp only [hf, Txn_log]
  | some o => simp only [hf, Txn_log, List.append_assoc, List.singleton_append]

/-- C9 (amended). On a backend that serves the requests, `Put`, `Update`, `Create` and
`AtomicPut` request a lease exactly when write options are given, whatever their TTL,
zero included: with nil options the only request is the write (or the transaction
around it) carrying lease 0; with options a `Grant` of `int64(opts.TTL.Seconds())` is
sent first and the write carries the ID of the lease just granted. -/
theorem lease_requested_iff_options_given (Normalize : String → String) (s : Etcd)
    (k v : String) (previous : Option KVPair) (opts : Option WriteOptions)
    (hnet : s.client.faults = []) :
    (Etcd.Put Normalize s k v opts).2.client.log = s.client.log ++
      (match opts with
        | none => [.Put (Normalize k) v 0]
        | some o => [.Grant o.TTL.Seconds,
            .Put (Normalize k) v (s.client.leases.length + 1)]) ∧
    (Etcd.Update Normalize s k v opts).2.client.log = s.client.log ++
      (match opts with
        | none => [.Txn [Compare (CreateRevision (Normalize k)) .GREATER (.int 0)]
            [.Put (Normalize k) v 0]]
        | some o => [.Grant o.TTL.Seconds,
            .Txn [Compare (CreateRevision (Normalize k)) .GREATER (.int 0)]
              [.Put (Normalize k) v (s.client.leases.length + 1)]]) ∧
    (Etcd.Create Normalize s k v opts).2.client.log = s.client.log ++
      (match opts with
        | none => [.Txn [Compare (CreateRevision (Normalize k)) .EQUAL (.int 0)]
            [.Put (Normalize k) v 0]]
        | some o => [.Grant o.TTL.Seconds,
            .Txn [Compare (CreateRevision (Normalize k)) .EQUAL (.int 0)]
              [.Put (Normalize k) v (s.client.leases.length + 1)]]) ∧
    (Etcd.AtomicPut Normalize s k v previous opts).2.client.log = s.client.log ++
      (match opts with
        | none => [.Txn (atomicPutCmps (Normalize k) previous) [.Put (Normalize k) v 0]]
        | some o => [.Grant o.TTL.Seconds,
            .Txn (atomicPutCmps (Normalize k) previous)
              [.Put (Normalize k) v (s.client.leases.length + 1)]]) := by
  refine ⟨Put_lease_served Normalize s k v opts hnet, ?_, ?_, ?_⟩
  · exact txnPut_lease_served (Normalize k) s v opts
      [Compare (CreateRevision (Normalize k)) .GREATER (.int 0)] hnet
      (fun x => match x with
        | (.error err, c) => (some err, ⟨c⟩)
        | (.ok resp, c) =>
          if !resp.Succeeded then (some .ErrKeyNotFound, ⟨c⟩) else (none, ⟨c⟩))
      (by
        rintro ⟨r, c⟩
        cases r with
        | error e => rfl
        | ok resp => simp only []; split <;> rfl)
  · exact txnPut_lease_served (Normalize k) s v opts
      [Compare (CreateRevision (Normalize k)) .EQUAL (.int 0)] hnet
      (fun x => match x with
        | (.error err, c) => (some err, ⟨c⟩)
        | (.ok resp, c) =>
          if !resp.Succeeded then (some .ErrKeyExists, ⟨c⟩) else (none, ⟨c⟩))
      (by
        rintro ⟨r, c⟩
        cases r with
        | error e => rfl
        | ok resp => simp only []; split <;> rfl)
  · exact txnPut_lease_served (Normalize k) s v opts
      (atomicPutCmps (Normalize k) previous) hnet
      (fun x => match x with
        | (.error err, c) => (some err, ⟨c⟩)
        | (.ok resp, c) =>
          if resp.Succeeded then (none, ⟨c⟩)
          else if previous = none then (some .ErrKeyExists, ⟨c⟩)
          else (some .ErrKeyModified, ⟨c⟩))
      (by
        rintro ⟨r, c⟩
        cases r with
        | error e => rfl
        | ok resp => simp only []; split <;> [rfl; (split <;> rfl)])

/-- C9 (counterexample). `Put` with write options of TTL 0 on the empty store asks the
backend for a lease (a `Grant` of 0 seconds) and attaches it: the write is sent under
the granted lease and the stored value carries it. -/
theorem Put_ttl_zero_requests_lease :
    (Etcd.Put normalizeModel ⟨Client.empty⟩ "a" "x" (some { TTL := 0 })).2.client.log
      = [.Grant 0, .Put "/a" "x" 1] ∧
    lookup (Etcd.Put normalizeModel ⟨Client.empty⟩ "a" "x" (some { TTL := 0 })).2.client.kvs
      "/a" = some { Key := "/a", CreateRevision := 2, ModRevision := 2, Version := 1,
                    Value := "x", Lease := 1 } := by
  decide

/-- C9 (witness). On the empty store, `Put` without options sends the write alone;
`Put` with options of 5 s sends a grant of 5 and then the write under lease 1; with
options of 16777216.999999999 s the grant is of 16777217, the float64 sum having
rounded up. -/
theorem lease_requested_iff_options_given_witness :
    Client.empty.faults = [] ∧
    (Etcd.Put normalizeModel ⟨Client.empty⟩ "a" "x" none).2.client.log
      = [.Put "/a" "x" 0] ∧
    (Etcd.Put normalizeModel ⟨Client.empty⟩ "a" "x" (some { TTL := 5000000000 })).2.client.log
      = [.Grant 5, .Put "/a" "x" 1] ∧
    (Etcd.Create normalizeModel ⟨Client.empty⟩ "a" "x"
        (some { TTL := 16777216999999999 })).2.client.log
      = [.Grant 16777217,
          .Txn [{ Key := "/a", Target := .CREATE, Result := .EQUAL, Value := .int 0 }]
            [.Put "/a" "x" 1]] :=
  ⟨rfl,
    ((lease_requested_iff_options_given normalizeModel ⟨Client.empty⟩ "a" "x" none none
      rfl).1).trans (by decide),
    ((lease_requested_iff_options_given normalizeModel ⟨Client.empty⟩ "a" "x" none
      (some { TTL := 5000000000 }) rfl).1).trans (by decide),
    ((lease_requested_iff_options_given normalizeModel ⟨Client.empty⟩ "a" "x" none
      (some { TTL := 16777216999999999 }) rfl).2.2.1).trans (by decide)⟩

/-! ## Watch translation and delivery -/

/-- The error item that ends a failed watch. -/
theorem makeWatchResponse_error (event : Option Event) (e : Error) :
    makeWatchResponse event (some e)
      = .ok { Action := .unset, PreNode := none, Node := none, Error := some e } := rfl

theorem forwardEvents_ok (evs : List Event) (items out : List WatchResponse)
    (h : evs.map (fun e => makeWatchResponse (some e) none) = items.map .ok) :
    forwardEvents evs out = (out ++ items, none) := by
  induction evs generalizing items out with
  | nil =>
    cases items with
    | nil => simp [forwardEvents]
    | cons i is => simp at h
  | cons e es ih =>
    cases items with
    | nil => simp at h
    | cons i is =>
      simp only [List.map_cons, List.cons.injEq] at h
      obtain ⟨h1, h2⟩ := h
      simp only [forwardEvents, h1]
      rw [ih is (out ++ [i]) h2]
      simp

/-- When every event of every batch translates, the goroutine sends the translations
of all events in receipt order, then the single `ErrWatchFail` item, and closes the
channel and the watcher. -/
theorem watchLoop_delivers_in_order (batches : List WatchBatch)
    (items out : List WatchResponse)
    (h : (batches.flatMap (fun b => b.Events)).map (fun e => makeWatchResponse (some e) none)
      = items.map .ok) :
    watchLoop batches out =
      { sent := out ++ items ++
          [{ Action := .unset, PreNode := none, Node := none, Error := some .ErrWatchFail }],
        closed := true, watcherClosed := true, panicked := none } := by
  induction batches generalizing items out with
  | nil =>
    cases items with
    | nil => simp [watchLoop, forwardEvents, makeWatchResponse]
    | cons i is => simp at h
  | cons b rest ih =>
    simp only [List.flatMap_cons, List.map_append] at h
    -- split the items between this batch and the rest
    have hlen : (b.Events.map (fun e => makeWatchResponse (some e) none)).length
        ≤ items.length := by
      have := congrArg List.length h
      simp only [List.length_append, List.length_map] at this
      simp only [List.length_map]
      omega
    have hsplit : items = items.take b.Events.length ++ items.drop b.Events.length :=
      (List.take_append_drop _ _).symm
    rw [hsplit, List.map_append] at h
    have hl : (b.Events.map (fun e => makeWatchResponse (some e) none)).length
        = ((items.take b.Events.length).map
            (Except.ok : WatchResponse → Except Panic WatchResponse)).length := by
      simp only [List.length_map] at hlen ⊢
      simp [List.length_take, hlen]
    obtain ⟨h1, h2⟩ := List.append_inj h hl
    simp only [watchLoop, forwardEvents_ok b.Events _ out h1]
    rw [ih _ _ h2]
    simp only [List.append_assoc]
    rw [← List.append_assoc (List.take _ _), List.take_append_drop]

/-- C8 (the code at the failing input). The translation of an event without previous
state, such as the put that creates a key, dereferences the nil `PrevKv` and panics:
no watch response is produced. -/
theorem makeWatchResponse_creating_put_panics (t : EventType) (kv : KeyValue) :
    makeWatchResponse (some { Type_ := t, Kv := some kv, PrevKv := none }) none
      = .error .nilDereference := by
  cases t <;> rfl

/-- C10 (the code at the failing input). For an event carrying both states, `Node`
takes its key, value and index from `Kv` but its version and lease from `PrevKv`: the
second put of a key, now at version 2 under lease 7, is reported with version 1 and
lease 0. -/
theorem makeWatchResponse_node_version_from_prev (t : EventType) (kv prev : KeyValue) :
    makeWatchResponse (some { Type_ := t, Kv := some kv, PrevKv := some prev }) none
      = .ok { Action := (match t with | .PUT => .ActionPut | .DELETE => .ActionDelete),
              PreNode := some (toKVPair prev),
              Node := some { Key := kv.Key, Value := kv.Value,
                             Index := uint64 kv.ModRevision,
                             Version := uint64 prev.Version, Lease := uint64 prev.Lease },
              Error := none } ∧
    makeWatchResponse (some secondPut) none
      = .ok { Action := .ActionPut,
              PreNode := some { Key := "/a", Value := "x", Index := 2, Version := 1,
                                Lease := 0 },
              Node := some { Key := "/a", Value := "y", Index := 3, Version := 1,
                             Lease := 0 },
              Error := none } := by
  refine ⟨?_, by rfl⟩
  cases t <;> rfl

/-- C7 (the code at the failing input). A batch that holds an event without previous
state stops the delivery goroutine with a panic: the items of the earlier events are
the only ones sent, and no `ErrWatchFail` item follows. -/
theorem watchLoop_panics_on_creating_put (t : EventType) (kv : KeyValue)
    (es : List Event) (rest : List WatchBatch) (out : List WatchResponse) :
    watchLoop ({ Events := { Type_ := t, Kv := some kv, PrevKv := none } :: es } :: rest) out
      = { sent := out, closed := true, watcherClosed := true,
          panicked := some .nilDereference } ∧
    watchLoop [{ Events := [creatingPut] }] []
      = { sent := [], closed := true, watcherClosed := true,
          panicked := some .nilDereference } := by
  refine ⟨?_, by decide⟩
  cases t <;> rfl


/-! ## Concrete instances -/

theorem oneKey_Wf : oneKey.client.Wf := by
  simp [Client.Wf, oneKey]

theorem casCondition_previousRead : casCondition oneKey.client (normalizeModel "a") previousRead :=
  ⟨{ Key := "/a", CreateRevision := 2, ModRevision := 2, Version := 1, Value := "x",
     Lease := 0 }, by decide, rfl, fun _ => rfl⟩

/-- C1 (witness). In `oneKey`, with the pair read from `/a` as `previous`, both
`AtomicPut` and `AtomicDelete` of `a` return nil. -/
theorem atomic_cas_takes_effect_iff_witness :
    oneKey.client.Wf ∧ oneKey.client.rev < 2 ^ 63 ∧ previousRead.Index < 2 ^ 64 ∧
    oneKey.client.faults = [] ∧
    casCondition oneKey.client (normalizeModel "a") previousRead ∧
    (Etcd.AtomicPut normalizeModel oneKey "a" "y" (some previousRead) none).1 = none ∧
    (Etcd.AtomicDelete normalizeModel oneKey "a" (some previousRead)).1 = none :=
  ⟨oneKey_Wf, by decide, by decide, rfl, casCondition_previousRead,
    ((atomic_cas_takes_effect_iff normalizeModel oneKey "a" "y" previousRead none oneKey_Wf
      (by decide) (by decide) rfl).1 casCondition_previousRead).1.1,
    ((atomic_cas_takes_effect_iff normalizeModel oneKey "a" "y" previousRead none oneKey_Wf
      (by decide) (by decide) rfl).1 casCondition_previousRead).2.1⟩

/-- C2 (counterexample). In `oneKey`, a `previous` with index 0 and value `x` matches
`/a`; `AtomicPut` of `x` and then of `y` with that same `previous` both return nil, and
the second write replaces the first. -/
theorem AtomicPut_same_previous_both_succeed :
    casCondition oneKey.client (normalizeModel "a") previousNoIndex ∧
    (Etcd.AtomicPut normalizeModel oneKey "a" "x" (some previousNoIndex) none).1 = none ∧
    (Etcd.AtomicPut normalizeModel
      (Etcd.AtomicPut normalizeModel oneKey "a" "x" (some previousNoIndex) none).2
      "a" "y" (some previousNoIndex) none).1 = none ∧
    lookup (Etcd.AtomicPut normalizeModel
      (Etcd.AtomicPut normalizeModel oneKey "a" "x" (some previousNoIndex) none).2
      "a" "y" (some previousNoIndex) none).2.client.kvs "/a"
      = some { Key := "/a", CreateRevision := 2, ModRevision := 4, Version := 3,
               Value := "y", Lease := 0 } :=
  ⟨⟨{ Key := "/a", CreateRevision := 2, ModRevision := 2, Version := 1, Value := "x",
      Lease := 0 }, by decide, rfl, fun h => absurd rfl h⟩, by decide, by decide, by decide⟩

/-- C2 (witness). In `oneKey`, with the pair read from `/a` as `previous`, `AtomicPut`
of `y` succeeds and the following `AtomicPut` of `z` returns `ErrKeyModified`. -/
theorem AtomicPut_same_previous_one_succeeds_witness :
    oneKey.client.Wf ∧ oneKey.client.faults = [] ∧
    casCondition oneKey.client (normalizeModel "a") previousRead ∧
    (previousRead.Index ≠ 0 ∨ ("y" ≠ previousRead.Value ∧ "z" ≠ previousRead.Value)) ∧
    (Etcd.AtomicPut normalizeModel oneKey "a" "y" (some previousRead) none).1 = none ∧
    (Etcd.AtomicPut normalizeModel
      (Etcd.AtomicPut normalizeModel oneKey "a" "y" (some previousRead) none).2
      "a" "z" (some previousRead) none).1 = some .ErrKeyModified :=
  ⟨oneKey_Wf, rfl, casCondition_previousRead, Or.inl (by decide),
    (AtomicPut_same_previous_one_succeeds normalizeModel oneKey "a" "y" "z" previousRead
      none none oneKey_Wf (by decide) (by decide) rfl casCondition_previousRead
      (Or.inl (by decide))).1.1,
    (AtomicPut_same_previous_one_succeeds normalizeModel oneKey "a" "y" "z" previousRead
      none none oneKey_Wf (by decide) (by decide) rfl casCondition_previousRead
      (Or.inl (by decide))).1.2.1⟩

/-- C3 (witness). On the empty store `AtomicPut` of `a` with a nil `previous` returns
nil; in `oneKey` it returns `ErrKeyExists`. -/
theorem AtomicPut_nil_previous_creates_witness :
    Client.empty.Wf ∧ Client.empty.faults = [] ∧
    lookup Client.empty.kvs (normalizeModel "a") = none ∧
    (Etcd.AtomicPut normalizeModel ⟨Client.empty⟩ "a" "x" none none).1 = none ∧
    (Etcd.AtomicPut normalizeModel oneKey "a" "y" none none).1 = some .ErrKeyExists :=
  ⟨Wf_empty, rfl, rfl,
    ((AtomicPut_nil_previous_creates normalizeModel ⟨Client.empty⟩ "a" "x" none Wf_empty
      rfl).2.1 rfl).1,
    ((AtomicPut_nil_previous_creates normalizeModel oneKey "a" "y" none oneKey_Wf
      rfl).2.2 (by decide)).1⟩

/-- C4 (witness). On the empty store `Create` of `a` returns nil, and a second `Create`
of `a` returns `ErrKeyExists`. -/
theorem Create_fails_iff_key_exists_witness :
    Client.empty.Wf ∧ Client.empty.faults = [] ∧
    (Etcd.Create normalizeModel ⟨Client.empty⟩ "a" "x" none).1 = none ∧
    (Etcd.Create normalizeModel (Etcd.Create normalizeModel ⟨Client.empty⟩ "a" "x" none).2
      "a" "y" none).1 = some .ErrKeyExists :=
  ⟨Wf_empty, rfl,
    ((Create_fails_iff_key_exists normalizeModel ⟨Client.empty⟩ "a" "x" "y" none none
      Wf_empty rfl).1 rfl).1,
    ((Create_fails_iff_key_exists normalizeModel ⟨Client.empty⟩ "a" "x" "y" none none
      Wf_empty rfl).2.2 (by decide)).1⟩

/-- C5 (witness). On the empty store `Update` of `a` returns `ErrKeyNotFound`; in
`oneKey` it returns nil. -/
theorem Update_fails_unless_key_exists_witness :
    Client.empty.Wf ∧ Client.empty.faults = [] ∧
    (Etcd.Update normalizeModel ⟨Client.empty⟩ "a" "x" none).1 = some .ErrKeyNotFound ∧
    (Etcd.Update normalizeModel oneKey "a" "y" none).1 = none :=
  ⟨Wf_empty, rfl,
    ((Update_fails_unless_key_exists normalizeModel ⟨Client.empty⟩ "a" "x" Wf_empty
      rfl).2.1 rfl).1,
    ((Update_fails_unless_key_exists normalizeModel oneKey "a" "y" oneKey_Wf
      rfl).2.2 (by decide)).1⟩


end Etcdv3
